import Mathlib

/-!
Verification development for the `scangen` multi-pattern scanner generator.

The Rust sources are shallowly embedded: machine integers (`usize`) become
`Nat`, `Vec`/slices become `List`, `BTreeMap`/`BTreeSet` become sorted
association lists / sorted lists of `Nat`, closures become Lean functions,
and code that can panic returns `Option` (with `none` marking the panic).
Stateful methods become explicit state-passing functions.
-/

set_option maxRecDepth 4096

namespace Scangen

/-! ### Spans and matches (`src/common/span.rs`, `src/common/match_type.rs`)

`Span { start, end }`: byte offsets, `start` inclusive, `end` exclusive.
`len` is `end.saturating_sub(start)`, which is exactly `Nat` subtraction.
A `Match` couples the externally visible token type with a span. -/

structure Span where
  start : Nat
  stop : Nat
  deriving Repr, DecidableEq

def Span.len (s : Span) : Nat := s.stop - s.start

structure Match where
  tokenType : Nat
  span : Span
  deriving Repr, DecidableEq

def Match.start (m : Match) : Nat := m.span.start

def Match.stop (m : Match) : Nat := m.span.stop

def Match.len (m : Match) : Nat := m.span.len

/-! ### The matching-state automaton (`src/matching_state.rs`)

Four-valued state machine driven by the three events `no_transition`,
`transition_to_non_accepting` and `transition_to_accepting`. -/

inductive InnerMatchingState where
  | none
  | start
  | accepting
  | longest
  deriving Repr, DecidableEq

instance : Inhabited InnerMatchingState := ⟨InnerMatchingState.none⟩

structure MatchingState where
  state : InnerMatchingState := .none
  startPosition : Option Nat := Option.none
  endPosition : Option Nat := Option.none
  deriving Repr, DecidableEq

instance : Inhabited MatchingState := ⟨{}⟩

namespace MatchingState

/-- `MatchingState::no_transition` (`src/matching_state.rs` lines 21-38). -/
def noTransition (ms : MatchingState) : MatchingState :=
  match ms.state with
  | .none => ms
  | .start => {}
  | .accepting => { ms with state := .longest }
  | .longest => ms

/-- `MatchingState::transition_to_non_accepting` (lines 42-61). -/
def transitionToNonAccepting (ms : MatchingState) (i : Nat) : MatchingState :=
  match ms.state with
  | .none => { ms with state := .start, startPosition := some i }
  | .start => ms
  | .accepting => ms
  | .longest => ms

/-- `MatchingState::transition_to_accepting` (lines 65-91); `c.len_utf8()`
is the UTF-8 byte length of the character, `Char.utf8Size` in Lean. -/
def transitionToAccepting (ms : MatchingState) (i : Nat) (c : Char) : MatchingState :=
  match ms.state with
  | .none =>
      { state := .accepting, startPosition := some i,
        endPosition := some (i + c.utf8Size) }
  | .start => { ms with state := .accepting, endPosition := some (i + c.utf8Size) }
  | .accepting => { ms with endPosition := some (i + c.utf8Size) }
  | .longest => ms

def isNoMatch (ms : MatchingState) : Bool := ms.state = .none

def isStartMatch (ms : MatchingState) : Bool := ms.state = .start

def isAcceptingMatch (ms : MatchingState) : Bool := ms.state = .accepting

def isLongestMatch (ms : MatchingState) : Bool := ms.state = .longest

/-- `MatchingState::last_match`: `Some {start, end}` iff both positions are set. -/
def lastMatch (ms : MatchingState) : Option Span :=
  match ms.startPosition, ms.endPosition with
  | some s, some e => some ⟨s, e⟩
  | _, _ => Option.none

end MatchingState

/-! ### Unicode character classes (`src/compiletime/match_function.rs`)

`MatchFunction` closures become `Char → Bool`.  The primitive character
predicates (`char::is_alphabetic` etc. of the Rust standard library) are
external collaborators; they are abstracted into a record of predicates. -/

inductive ClassUnicodeKind where
  | oneLetter (c : Char)
  | named (name : String)
  | namedValue (name value : String)

structure ClassUnicode where
  negated : Bool
  kind : ClassUnicodeKind

/-- Primitive `char` predicates of the Rust standard library used by the
`OneLetter` arms; their actual Unicode tables are irrelevant here. -/
structure CharPrims where
  isAlphabetic : Char → Bool
  isNumeric : Char → Bool
  isWhitespace : Char → Bool
  isAsciiPunctuation : Char → Bool
  isControl : Char → Bool

/-- `MatchFunction::try_from_class_unicode` (`match_function.rs` lines 45-77).
`Except.error ()` models `UnsupportedFeature`. -/
def tryFromClassUnicode (p : CharPrims) (unicode : ClassUnicode) :
    Except Unit (Char → Bool) := do
  let negated := unicode.negated
  let matchFunction ←
    match unicode.kind with
    | .oneLetter ch =>
        match ch with
        | 'L' => pure p.isAlphabetic
        | 'N' => pure p.isNumeric
        | 'Z' => pure p.isWhitespace
        | 'P' => pure p.isAsciiPunctuation
        | 'C' => pure p.isControl
        | _ => Except.error ()
    | .named _ | .namedValue _ _ =>
        -- No support for named classes and named values; the inner
        -- predicate constantly yields the negation flag.
        let noMatch := negated
        pure (fun _ => noMatch)
  if unicode.negated then
    pure (fun ch => !(matchFunction ch))
  else
    pure matchFunction

/-! ### Runtime DFA (`src/runtime/dfa.rs`)

The runtime `MatchingState<usize>` additionally tracks the current DFA
state (`current_state` / `set_current_state`, used by `Dfa::advance` and
`Dfa::find_transition`); it is modelled as the separate field
`currentState`, reset together with the matching state. -/

structure Dfa where
  pattern : String
  acceptingStates : List Nat
  stateRanges : List (Nat × Nat)
  transitions : List (Nat × (Nat × Nat))
  matchingState : MatchingState := {}
  currentState : Nat := 0
  deriving Repr, DecidableEq

instance : Inhabited Dfa where
  default := { pattern := "", acceptingStates := [], stateRanges := [], transitions := [] }

namespace Dfa

/-- `Dfa::find_transition`: linear scan over the state's transition range.
The indexings `self.state_ranges[current_state]` and
`self.transitions[start..end]` can panic on malformed `DfaData`; they are
modelled by `getD`/`drop`/`take` defaults, so such within-DFA panics are
not modelled (panic-freedom statements are therefore made only in the
necessity direction over the mode index, which is the one indexing the
search itself performs unconditionally). -/
def findTransition (dfa : Dfa) (c : Char) (matchesCharClass : Char → Nat → Bool) :
    Option Nat :=
  let (rs, re) := dfa.stateRanges.getD dfa.currentState (0, 0)
  let transitions := (dfa.transitions.drop rs).take (re - rs)
  transitions.findSome? fun t =>
    if matchesCharClass c t.2.1 then some t.2.2 else Option.none

/-- `Dfa::advance`: advance the DFA by one character. -/
def advance (dfa : Dfa) (cPos : Nat) (c : Char)
    (matchesCharClass : Char → Nat → Bool) : Dfa :=
  if dfa.matchingState.isLongestMatch then dfa
  else
    match dfa.findTransition c matchesCharClass with
    | some nextState =>
        if dfa.acceptingStates.contains nextState then
          { dfa with matchingState := dfa.matchingState.transitionToAccepting cPos c,
                     currentState := nextState }
        else
          { dfa with matchingState := dfa.matchingState.transitionToNonAccepting cPos,
                     currentState := nextState }
    | Option.none => { dfa with matchingState := dfa.matchingState.noTransition }

/-- `Dfa::reset`: `matching_state = MatchingState::new()` (which also
clears the tracked current state). -/
def reset (dfa : Dfa) : Dfa :=
  { dfa with matchingState := {}, currentState := 0 }

/-- `Dfa::search_for_longer_match`. -/
def searchForLongerMatch (dfa : Dfa) : Bool :=
  !dfa.matchingState.isLongestMatch && !dfa.matchingState.isNoMatch

/-- `Dfa::current_match`. -/
def currentMatch (dfa : Dfa) : Option Span :=
  dfa.matchingState.lastMatch

end Dfa

/-- `DfaWithTokenType` (`src/runtime/dfa.rs`): a DFA bundled with the token
type number it reports in the containing scanner mode. -/
structure DfaWithTokenType where
  dfa : Dfa
  tokenType : Nat
  deriving Repr, DecidableEq

instance : Inhabited DfaWithTokenType := ⟨⟨default, 0⟩⟩

namespace DfaWithTokenType

def reset (d : DfaWithTokenType) : DfaWithTokenType := { d with dfa := d.dfa.reset }

def advance (d : DfaWithTokenType) (cPos : Nat) (c : Char)
    (matchesCharClass : Char → Nat → Bool) : DfaWithTokenType :=
  { d with dfa := d.dfa.advance cPos c matchesCharClass }

/-- `DfaWithTokenType::current_match`: the recorded span tagged with the
bound token type. -/
def currentMatch (d : DfaWithTokenType) : Option Match :=
  d.dfa.currentMatch.map fun span => ⟨d.tokenType, span⟩

end DfaWithTokenType

/-! ### Scanner modes (`src/runtime/scanner_mode.rs`) -/

structure ScannerMode where
  name : String
  dfas : List DfaWithTokenType
  transitions : List (Nat × Nat)
  deriving Repr, DecidableEq

/-- `ScannerMode::has_transition`: scan of the sorted transition list,
with early exit as soon as the stored token type exceeds the query. -/
def hasTransitionList : List (Nat × Nat) → Nat → Option Nat
  | [], _ => Option.none
  | (term, scanner) :: rest, tokenType =>
    if tokenType < term then Option.none
    else if tokenType = term then some scanner
    else hasTransitionList rest tokenType

def ScannerMode.hasTransition (mode : ScannerMode) (tokenType : Nat) : Option Nat :=
  hasTransitionList mode.transitions tokenType

/-! ### The scanner (`src/runtime/scanner.rs`)

The `Scanner` value also stores the list of source DFAs (`dfas`), used
only while building modes; it plays no role in searching and is omitted.

`find_from` / `peek_from` start by indexing `scanner_modes[current_mode]`;
this indexing can panic, which is modelled by an outer `Option` (with
`none` marking the panic). -/

structure Scanner where
  scannerModes : List ScannerMode
  currentMode : Nat
  deriving Repr, DecidableEq

/-- One round of the search loop body of `Scanner::find_from` /
`Scanner::peek_from`: advance every still-active DFA by the character.
The Rust `for dfa_index in &active_dfas` loop mutates
`current_mode.dfas[*dfa_index]` in place; here the list is rebuilt with
positions tracked by `idx`. -/
def advanceActive (matchesCharClass : Char → Nat → Bool) (active : List Nat)
    (i : Nat) (c : Char) : List DfaWithTokenType → Nat → List DfaWithTokenType
  | [], _ => []
  | d :: rest, idx =>
    (if active.contains idx then d.advance i c matchesCharClass else d) ::
      advanceActive matchesCharClass active i c rest (idx + 1)

/-- Index lookup `current_mode.dfas[dfa_index]` for an active index
(always in bounds for indices drawn from `active_dfas`). -/
def dfaAt (dfas : List DfaWithTokenType) (idx : Nat) : DfaWithTokenType :=
  dfas.getD idx default

/-- The `for (i, c) in char_indices` loop shared verbatim by
`Scanner::find_from` (lines 60-81) and `Scanner::peek_from`
(lines 107-128).  Returns the mutated mode DFAs and the characters left
unconsumed (relevant for `peek_from`, whose `CharIndices` is `&mut`). -/
def searchLoop (matchesCharClass : Char → Nat → Bool) :
    List DfaWithTokenType → List Nat → List (Nat × Char) →
      List DfaWithTokenType × List (Nat × Char)
  | dfas, _, [] => (dfas, [])
  | dfas, active, (i, c) :: rest =>
    let dfas := advanceActive matchesCharClass active i c dfas 0
    let active :=
      if i = 0 then
        active.filter fun idx => !(dfaAt dfas idx).dfa.matchingState.isNoMatch
      else active
    let active := active.filter fun idx => (dfaAt dfas idx).dfa.searchForLongerMatch
    if active.isEmpty then (dfas, rest)
    else searchLoop matchesCharClass dfas active rest

/-- Loop body of `Scanner::find_first_longest_match`: the candidate is
replaced only on a strictly smaller start, or an equal start with a
strictly greater length. -/
def ffStep (currentMatch : Option Match) (d : DfaWithTokenType) : Option Match :=
  match d.currentMatch with
  | some dfaMatch =>
    match currentMatch with
    | Option.none => some dfaMatch
    | some cur =>
      if dfaMatch.start < cur.start ∨
          (dfaMatch.start = cur.start ∧ cur.len < dfaMatch.len) then
        some dfaMatch
      else some cur
  | Option.none => currentMatch

/-- `Scanner::find_first_longest_match` (scanner.rs lines 136-154): fold
over the mode's DFAs in binding order. -/
def findFirstLongestMatch (dfas : List DfaWithTokenType) : Option Match :=
  dfas.foldl ffStep Option.none

/-- The common search of `find_from`/`peek_from`: reset the current
mode's DFAs, run the character loop, pick the winner. -/
def ScannerMode.search (mode : ScannerMode) (charIndices : List (Nat × Char))
    (matchesCharClass : Char → Nat → Bool) :
    Option Match × List DfaWithTokenType × List (Nat × Char) :=
  let dfas := mode.dfas.map DfaWithTokenType.reset
  let r := searchLoop matchesCharClass dfas (List.range mode.dfas.length) charIndices
  (findFirstLongestMatch r.1, r.1, r.2)

namespace Scanner

/-- `Scanner::find_from`: leftmost search from the cursor followed by
`execute_possible_mode_switch`.  The result scanner carries the mutated
matching states of the searched mode and the possibly switched mode. -/
def findFrom (s : Scanner) (charIndices : List (Nat × Char))
    (matchesCharClass : Char → Nat → Bool) : Option (Option Match × Scanner) :=
  match s.scannerModes.get? s.currentMode with
  | Option.none => Option.none
  | some currentMode =>
    let r := currentMode.search charIndices matchesCharClass
    let mode : ScannerMode := { currentMode with dfas := r.2.1 }
    let s' : Scanner := { s with scannerModes := s.scannerModes.set s.currentMode mode }
    -- execute_possible_mode_switch (scanner.rs lines 156-166)
    let s'' : Scanner :=
      match r.1 with
      | some currentMatch =>
        match mode.hasTransition currentMatch.tokenType with
        | some nextMode => { s' with currentMode := nextMode }
        | Option.none => s'
      | Option.none => s'
    some (r.1, s'')

/-- `Scanner::peek_from`: identical search, no mode switch; the consumed
cursor position is reported back (the Rust signature takes
`&mut CharIndices`). -/
def peekFrom (s : Scanner) (charIndices : List (Nat × Char))
    (matchesCharClass : Char → Nat → Bool) :
    Option (Option Match × Scanner × List (Nat × Char)) :=
  match s.scannerModes.get? s.currentMode with
  | Option.none => Option.none
  | some currentMode =>
    let r := currentMode.search charIndices matchesCharClass
    let mode : ScannerMode := { currentMode with dfas := r.2.1 }
    let s' : Scanner := { s with scannerModes := s.scannerModes.set s.currentMode mode }
    some (r.1, s', r.2.2)

/-- `Scanner::has_transition`: indexes `scanner_modes[current_mode]`
(outer `Option` models the potential index panic). -/
def hasTransitionM (s : Scanner) (tokenType : Nat) : Option (Option Nat) :=
  (s.scannerModes.get? s.currentMode).map fun m => m.hasTransition tokenType

/-- `Scanner::set_mode`: stores the index without a bounds check. -/
def setMode (s : Scanner) (mode : Nat) : Scanner := { s with currentMode := mode }

end Scanner

/-! ### The match iterator (`src/runtime/find_matches.rs`)

The `FindMatches` state is the pair of the borrowed scanner and the
`CharIndices` cursor, here a `List (Nat × Char)` of byte-offset/character
pairs. -/

/-- Byte-offset/character pairs of a string, as `str::char_indices`. -/
def charIndices (l : List Char) : List (Nat × Char) :=
  go 0 l
where
  go : Nat → List Char → List (Nat × Char)
    | _, [] => []
    | i, c :: rest => (i, c) :: go (i + c.utf8Size) rest

/-- `FindMatches::advance_beyond_match` (find_matches.rs lines 117-121):
`end = matched.span().end - 1` and
`while peekable.next_if(|(i, _)| *i < end).is_some() {}`.
The temporary `Peekable` wraps `self.char_indices.by_ref()`; when
`next_if`'s predicate fails, the peeked element stays buffered inside the
temporary and disappears with it, so one element beyond the failing test
is consumed from the underlying iterator. -/
def advanceBeyondMatch (charIndices : List (Nat × Char)) (matched : Match) :
    List (Nat × Char) :=
  let e := matched.span.stop - 1
  (charIndices.dropWhile fun p => p.1 < e).drop 1

/-- The retry loop of `FindMatches::next_match`: advance the cursor by
one character and search again, until a match is found or the input is
exhausted. -/
def nextMatchLoop (matchesCharClass : Char → Nat → Bool) :
    Scanner → List (Nat × Char) → Option (Option Match × Scanner × List (Nat × Char))
  | s, [] => some (Option.none, s, [])
  | s, _ :: rest =>
    match s.findFrom rest matchesCharClass with
    | Option.none => Option.none
    | some (some m, s') => some (some m, s', advanceBeyondMatch rest m)
    | some (Option.none, s') => nextMatchLoop matchesCharClass s' rest

/-- `FindMatches::next_match` (find_matches.rs lines 55-75). -/
def nextMatch (s : Scanner) (charIndices : List (Nat × Char))
    (matchesCharClass : Char → Nat → Bool) :
    Option (Option Match × Scanner × List (Nat × Char)) :=
  match s.findFrom charIndices matchesCharClass with
  | Option.none => Option.none
  | some (some m, s') => some (some m, s', advanceBeyondMatch charIndices m)
  | some (Option.none, s') => nextMatchLoop matchesCharClass s' charIndices

/-- `PeekResult` (find_matches.rs lines 7-18). -/
inductive PeekResult where
  | matches (v : List Match)
  | matchesReachedEnd (v : List Match)
  | matchesReachedModeSwitch (v : List Match) (newMode : Nat)
  | notFound
  deriving Repr, DecidableEq

/-- The `for _ in 0..n` loop of `FindMatches::peek_n`: repeated
`peek_from` on the cloned cursor, pushing each match and stopping early
on a missing match or a token type with a mode transition. -/
def peekNLoop (matchesCharClass : Char → Nat → Bool) :
    Scanner → Nat → List (Nat × Char) → List Match →
      Option (List Match × Bool × Nat × Scanner)
  | s, 0, _, acc => some (acc, false, 0, s)
  | s, n + 1, cur, acc =>
    match s.peekFrom cur matchesCharClass with
    | Option.none => Option.none
    | some (some matched, s', cur') =>
      match s'.hasTransitionM matched.tokenType with
      | Option.none => Option.none
      | some (some mode) => some (acc ++ [matched], true, mode, s')
      | some Option.none => peekNLoop matchesCharClass s' n cur' (acc ++ [matched])
    | some (Option.none, s', _) => some (acc, false, 0, s')

/-- `FindMatches::peek_n` (find_matches.rs lines 84-113): works on a
clone of the cursor, so the iterator's own cursor is untouched; the
scanner is returned to track its (transient) mutations. -/
def peekN (s : Scanner) (charIndices : List (Nat × Char))
    (matchesCharClass : Char → Nat → Bool) (n : Nat) :
    Option (PeekResult × Scanner) :=
  match peekNLoop matchesCharClass s n charIndices [] with
  | Option.none => Option.none
  | some (ms, modeSwitch, newMode, s') =>
    some
      (if ms.length = n then .matches ms
       else if modeSwitch then .matchesReachedModeSwitch ms newMode
       else if ms.isEmpty then .notFound
       else .matchesReachedEnd ms, s')

/-! ### A concrete scanner: the single pattern `"."`

The tables below are exactly the `DfaData` the generator emits for the
pattern `"."` (one start state `0`, one accepting state `1`, a single
transition on character class `0` = `Dot`), bundled into the default
`"INITIAL"` mode with token type `0` and no mode transitions.  The class
dispatcher is the emitted `matches_char_class`:
class `0` matches `c != '\n' && c != '\r'`. -/

def dotMatchesCharClass : Char → Nat → Bool := fun c charClass =>
  match charClass with
  | 0 => !(c = '\n') && !(c = '\r')
  | _ => false

def dotDfa : Dfa :=
  { pattern := ".", acceptingStates := [1], stateRanges := [(0, 1), (1, 1)],
    transitions := [(0, (0, 1))] }

def dotMode : ScannerMode :=
  { name := "INITIAL", dfas := [⟨dotDfa, 0⟩], transitions := [] }

def dotScanner : Scanner :=
  { scannerModes := [dotMode], currentMode := 0 }

end Scangen

namespace Scangen

/-! ## C3: the §4.H matching-state table -/

/-- C3: the per-DFA matching-state automaton implements the §4.H table.
From `None`, `transition_to_accepting(i, c)` records `start = i`,
`end = i + len_utf8(c)` and enters `Accepting`, while
`transition_to_non_accepting(i)` records `start = i` and enters `Start`;
from `Start`, `no_transition` clears both positions and returns to `None`,
while `transition_to_accepting(i, c)` sets `end = i + len_utf8(c)` and
enters `Accepting`; from `Accepting`, `no_transition` enters `Longest` and
a transition to an accepting state extends `end`; `Longest` is absorbing. -/
theorem matchingState_implements_table :
    ∀ (sp ep : Option Nat) (i : Nat) (c : Char),
      (MatchingState.transitionToAccepting ⟨.none, sp, ep⟩ i c =
        ⟨.accepting, some i, some (i + c.utf8Size)⟩) ∧
      (MatchingState.transitionToNonAccepting ⟨.none, sp, ep⟩ i =
        ⟨.start, some i, ep⟩) ∧
      (MatchingState.noTransition ⟨.start, sp, ep⟩ =
        ⟨.none, Option.none, Option.none⟩) ∧
      (MatchingState.transitionToAccepting ⟨.start, sp, ep⟩ i c =
        ⟨.accepting, sp, some (i + c.utf8Size)⟩) ∧
      (MatchingState.noTransition ⟨.accepting, sp, ep⟩ =
        ⟨.longest, sp, ep⟩) ∧
      (MatchingState.transitionToAccepting ⟨.accepting, sp, ep⟩ i c =
        ⟨.accepting, sp, some (i + c.utf8Size)⟩) ∧
      (MatchingState.noTransition ⟨.longest, sp, ep⟩ = ⟨.longest, sp, ep⟩) ∧
      (MatchingState.transitionToNonAccepting ⟨.longest, sp, ep⟩ i =
        ⟨.longest, sp, ep⟩) ∧
      (MatchingState.transitionToAccepting ⟨.longest, sp, ep⟩ i c =
        ⟨.longest, sp, ep⟩) := by
  intro sp ep i c
  refine ⟨rfl, rfl, rfl, rfl, rfl, rfl, rfl, rfl, rfl⟩

/-! ## C8: named Unicode classes never match -/

/-- C8: for every named or named-value Unicode class, negated or not,
interning succeeds and the compiled predicate returns `false` for every
character: the inner predicate yields the negation flag and the outer
negation wrap is applied on top, so the composed predicate never matches. -/
theorem namedUnicodeClass_never_matches :
    ∀ (p : CharPrims) (negated : Bool) (name value : String),
      (∃ f, tryFromClassUnicode p ⟨negated, .named name⟩ = .ok f ∧
        ∀ c, f c = false) ∧
      (∃ f, tryFromClassUnicode p ⟨negated, .namedValue name value⟩ = .ok f ∧
        ∀ c, f c = false) := by
  intro p negated name value
  cases negated <;>
    exact ⟨⟨_, rfl, fun _ => rfl⟩, ⟨_, rfl, fun _ => rfl⟩⟩

end Scangen


namespace Scangen

/-! ## C2: cursor advancement of the match iterator -/

/-- C2 (failing-input evaluation): on the input `"éa"` with the single
pattern `"."`, `next_match` returns the match `0..2` but leaves the
cursor empty — the character `'a'` at byte offset 2 was consumed while
advancing beyond the match — so the second `next_match` finds nothing.
Had the search resumed at byte offset 2 (`= m.end`) as the claim states,
it would have returned the match `2..3`, as the third conjunct shows. -/
theorem nextMatch_skips_char_after_multibyte_match :
    (nextMatch dotScanner (charIndices ['é', 'a']) dotMatchesCharClass).map
        (fun r => (r.1, r.2.2)) = some (some ⟨0, ⟨0, 2⟩⟩, []) ∧
    ((nextMatch dotScanner (charIndices ['é', 'a']) dotMatchesCharClass).bind
        (fun r => nextMatch r.2.1 r.2.2 dotMatchesCharClass)).map
        (fun r => (r.1, r.2.2)) = some (Option.none, []) ∧
    (nextMatch dotScanner [(2, 'a')] dotMatchesCharClass).map (fun r => r.1) =
      some (some ⟨0, ⟨2, 3⟩⟩) := by
  refine ⟨by decide, by decide, by decide⟩

/-! ## C9: `set_mode` is unchecked; searches index `scanner_modes[current_mode]` -/

/-- C9: `set_mode(i)` stores any index without a bounds check and
`current_mode()` then returns `i`; `find_from`, `peek_from` and
`has_transition` index `scanner_modes[current_mode]` directly, so they
are total (panic-free) only under the precondition that `current_mode`
is within bounds: whenever one of them completes without the
mode-indexing panic, `current_mode` was smaller than the number of
scanner modes. -/
theorem setMode_unchecked_and_mode_indexing :
    ∀ (s : Scanner) (i t : Nat) (c : List (Nat × Char)) (f : Char → Nat → Bool),
      (s.setMode i).currentMode = i ∧
      (((s.setMode i).findFrom c f).isSome → i < s.scannerModes.length) ∧
      (((s.setMode i).peekFrom c f).isSome → i < s.scannerModes.length) ∧
      (((s.setMode i).hasTransitionM t).isSome → i < s.scannerModes.length) := by
  intro s i t c f
  have hlt : ∀ (m : ScannerMode), s.scannerModes[i]? = some m →
      i < s.scannerModes.length := by
    intro m hm
    obtain ⟨hlen, _⟩ := List.getElem?_eq_some_iff.mp hm
    exact hlen
  refine ⟨rfl, ?_, ?_, ?_⟩
  · intro hsome
    unfold Scanner.findFrom at hsome
    simp only [Scanner.setMode] at hsome
    rw [List.get?_eq_getElem?] at hsome
    cases h : s.scannerModes[i]? with
    | none => rw [h] at hsome; simp at hsome
    | some m => exact hlt m h
  · intro hsome
    unfold Scanner.peekFrom at hsome
    simp only [Scanner.setMode] at hsome
    rw [List.get?_eq_getElem?] at hsome
    cases h : s.scannerModes[i]? with
    | none => rw [h] at hsome; simp at hsome
    | some m => exact hlt m h
  · intro hsome
    unfold Scanner.hasTransitionM at hsome
    simp only [Scanner.setMode] at hsome
    rw [List.get?_eq_getElem?] at hsome
    cases h : s.scannerModes[i]? with
    | none => rw [h] at hsome; simp at hsome
    | some m => exact hlt m h

/-- Witness: on the dot scanner, `set_mode 0` keeps mode 0, the search
from `"a"` completes, and the theorem yields the in-bounds fact. -/
theorem setMode_unchecked_and_mode_indexing_witness :
    (dotScanner.setMode 0).currentMode = 0 ∧ 0 < dotScanner.scannerModes.length :=
  ⟨(setMode_unchecked_and_mode_indexing dotScanner 0 0 [(0, 'a')]
      dotMatchesCharClass).1,
    (setMode_unchecked_and_mode_indexing dotScanner 0 0 [(0, 'a')]
      dotMatchesCharClass).2.1 (by decide)⟩

end Scangen

namespace Scangen

/-! ## C10: `peek_n(0)` and the origin of `NotFound` -/

/-- The matches accumulated by the `peek_n` loop extend the accumulator. -/
theorem peekNLoop_acc_prefix (f : Char → Nat → Bool) :
    ∀ (n : Nat) (s : Scanner) (cur : List (Nat × Char)) (acc ms : List Match)
      (b : Bool) (nm : Nat) (s' : Scanner),
      peekNLoop f s n cur acc = some (ms, b, nm, s') → ∃ tail, ms = acc ++ tail := by
  intro n
  induction n with
  | zero =>
    intro s cur acc ms b nm s' h
    simp only [peekNLoop] at h
    exact ⟨[], by simpa using (congrArg (fun r => r.1) (Option.some.inj h)).symm⟩
  | succ k ih =>
    intro s cur acc ms b nm s' h
    simp only [peekNLoop] at h
    cases hp : s.peekFrom cur f with
    | none => rw [hp] at h; exact absurd h (by simp)
    | some r =>
      obtain ⟨om, s₁, cur₁⟩ := r
      rw [hp] at h
      cases om with
      | none =>
        simp only at h
        exact ⟨[], by simpa using (congrArg (fun r => r.1) (Option.some.inj h)).symm⟩
      | some m =>
        simp only at h
        cases ht : s₁.hasTransitionM m.tokenType with
        | none => rw [ht] at h; exact absurd h (by simp)
        | some o =>
          rw [ht] at h
          cases o with
          | none =>
            obtain ⟨tail, htail⟩ := ih s₁ cur₁ (acc ++ [m]) ms b nm s' h
            exact ⟨[m] ++ tail, by simpa using htail⟩
          | some mode =>
            simp only at h
            refine ⟨[m], ?_⟩
            simpa using (congrArg (fun r => r.1) (Option.some.inj h)).symm

/-- C10: `peek_n(0)` returns `PeekResult::Matches` with an empty vector
rather than `NotFound`, because the `matches.len() == n` test precedes the
emptiness test; `NotFound` arises only for `k >= 1` when the first search
finds no match. -/
theorem peekN_zero_is_matches_and_notFound_origin :
    ∀ (s : Scanner) (c : List (Nat × Char)) (f : Char → Nat → Bool),
      peekN s c f 0 = some (.matches [], s) ∧
      (∀ (n : Nat) (res : PeekResult) (s₂ : Scanner),
        peekN s c f n = some (res, s₂) → res = .notFound →
          1 ≤ n ∧ ∃ s' cur', s.peekFrom c f = some (Option.none, s', cur')) := by
  intro s c f
  constructor
  · rfl
  · intro n res s₂ h hnf
    subst hnf
    cases n with
    | zero =>
      simp only [peekN, peekNLoop] at h
      exact absurd (congrArg (fun r => r.1) (Option.some.inj h)) (by simp)
    | succ k =>
      refine ⟨Nat.le_add_left 1 k, ?_⟩
      simp only [peekN] at h
      cases hl : peekNLoop f s (k + 1) c [] with
      | none => rw [hl] at h; exact absurd h (by simp)
      | some r =>
        obtain ⟨ms, b, nm, s₁⟩ := r
        rw [hl] at h
        simp only at h
        have hres := congrArg (fun r => r.1) (Option.some.inj h)
        simp only at hres
        -- the result is NotFound, so ms is empty
        have hempty : ms = [] := by
          by_contra hne
          split at hres
          · exact absurd hres (by simp)
          · split at hres
            · exact absurd hres (by simp)
            · split at hres
              · rename_i hemp
                exact hne (List.isEmpty_iff.mp hemp)
              · exact absurd hres (by simp)
        subst hempty
        -- unfold one step of the loop: the first peek must have found no match
        simp only [peekNLoop] at hl
        cases hp : s.peekFrom c f with
        | none => rw [hp] at hl; exact absurd hl (by simp)
        | some r₂ =>
          obtain ⟨om, s₃, cur₃⟩ := r₂
          cases om with
          | none => exact ⟨s₃, cur₃, rfl⟩
          | some m =>
            rw [hp] at hl
            simp only at hl
            cases ht : s₃.hasTransitionM m.tokenType with
            | none => rw [ht] at hl; exact absurd hl (by simp)
            | some o =>
              rw [ht] at hl
              cases o with
              | none =>
                obtain ⟨tail, htail⟩ := peekNLoop_acc_prefix f k s₃ cur₃ [m] [] b nm s₁ hl
                exact absurd htail (by simp)
              | some mode =>
                simp only at hl
                have := congrArg (fun r => r.1) (Option.some.inj hl)
                exact absurd this (by simp)

end Scangen

namespace Scangen

/-! ## C5: mode switching and `has_transition` -/

/-- On a transition list sorted by strictly increasing token type, the
early-exit scan finds exactly the listed pairs. -/
theorem hasTransitionList_eq_some_iff :
    ∀ (l : List (Nat × Nat)), l.Pairwise (fun a b => a.1 < b.1) →
      ∀ (t nm : Nat), (hasTransitionList l t = some nm ↔ (t, nm) ∈ l) := by
  intro l
  induction l with
  | nil => intro _ t nm; simp [hasTransitionList]
  | cons a rest ih =>
    intro hsorted t nm
    obtain ⟨hhead, hrest⟩ := List.pairwise_cons.mp hsorted
    by_cases h1 : t < a.1
    · have : hasTransitionList (a :: rest) t = Option.none := by
        obtain ⟨a1, a2⟩ := a
        simp only [hasTransitionList]
        rw [if_pos h1]
      rw [this]
      simp only [List.mem_cons]
      constructor
      · intro h; exact absurd h (by simp)
      · rintro (h | h)
        · exact absurd (congrArg Prod.fst h) (by simp; omega)
        · exact absurd (hhead _ h) (by simp; omega)
    · by_cases h2 : t = a.1
      · have : hasTransitionList (a :: rest) t = some a.2 := by
          obtain ⟨a1, a2⟩ := a
          simp only [hasTransitionList]
          rw [if_neg h1, if_pos h2]
        rw [this]
        simp only [List.mem_cons]
        constructor
        · intro h
          left
          have : nm = a.2 := by simpa using h.symm
          subst this; subst h2; rfl
        · rintro (h | h)
          · have h2' := congrArg Prod.snd h
            simp at h2'
            rw [h2']
          · exact absurd (hhead _ h) (by subst h2; omega)
      · have : hasTransitionList (a :: rest) t = hasTransitionList rest t := by
          obtain ⟨a1, a2⟩ := a
          simp only [hasTransitionList]
          rw [if_neg h1, if_neg h2]
        rw [this, ih hrest t nm]
        simp only [List.mem_cons]
        constructor
        · intro h; right; exact h
        · rintro (h | h)
          · exact absurd (congrArg Prod.fst h) (by simp; omega)
          · exact h

/-- C5: when `find_from` returns a match `m`, `current_mode` afterwards is
the target of the transition on `m.token_type` in the searched mode's
transition list if one is listed, and is unchanged otherwise; and
`has_transition(t)` returns `Some(next_mode)` exactly when `(t, next_mode)`
occurs in that (sorted, duplicate-free) transition list. -/
theorem findFrom_mode_switch :
    ∀ (s : Scanner) (c : List (Nat × Char)) (f : Char → Nat → Bool)
      (mode : ScannerMode) (m : Match) (s' : Scanner),
      s.scannerModes.get? s.currentMode = some mode →
      mode.transitions.Pairwise (fun a b => a.1 < b.1) →
      s.findFrom c f = some (some m, s') →
      (∀ nm, (m.tokenType, nm) ∈ mode.transitions → s'.currentMode = nm) ∧
      ((∀ nm, (m.tokenType, nm) ∉ mode.transitions) → s'.currentMode = s.currentMode) ∧
      (∀ t nm, mode.hasTransition t = some nm ↔ (t, nm) ∈ mode.transitions) := by
  intro s c f mode m s' hget hsorted h
  have hchar : ∀ t nm, mode.hasTransition t = some nm ↔ (t, nm) ∈ mode.transitions :=
    fun t nm => hasTransitionList_eq_some_iff mode.transitions hsorted t nm
  unfold Scanner.findFrom at h
  rw [hget] at h
  simp only at h
  have hinj := Option.some.inj h
  have h1 : (mode.search c f).1 = some m := congrArg Prod.fst hinj
  have h2 := congrArg Prod.snd hinj
  simp only at h2
  rw [h1] at h2
  simp only [ScannerMode.hasTransition] at h2
  refine ⟨?_, ?_, hchar⟩
  · intro nm hmem
    have : hasTransitionList mode.transitions m.tokenType = some nm :=
      (hchar m.tokenType nm).mpr hmem
    rw [this] at h2
    exact (congrArg Scanner.currentMode h2).symm
  · intro hnone
    have : hasTransitionList mode.transitions m.tokenType = Option.none := by
      cases hh : hasTransitionList mode.transitions m.tokenType with
      | none => rfl
      | some nm => exact absurd ((hchar m.tokenType nm).mp hh) (hnone nm)
    rw [this] at h2
    exact (congrArg Scanner.currentMode h2).symm

end Scangen

namespace Scangen

/-! ## C1: winner selection -/

/-- Witness scanner for the mode-switch theorem: the dot DFA bound with
token type 0, a transition `(0, 1)` to a second mode. -/
def switchMode0 : ScannerMode :=
  { name := "INITIAL", dfas := [⟨dotDfa, 0⟩], transitions := [(0, 1)] }

def switchScanner : Scanner :=
  { scannerModes := [switchMode0, dotMode], currentMode := 0 }

def switchDfaAfter : Dfa :=
  { dotDfa with matchingState := ⟨.accepting, some 0, some 1⟩, currentState := 1 }

def switchScannerAfter : Scanner :=
  { scannerModes := [{ switchMode0 with dfas := [⟨switchDfaAfter, 0⟩] }, dotMode],
    currentMode := 1 }

/-- Witness for the mode-switch theorem: searching `"a"` in the mode with
transition list `[(0, 1)]` yields the match of token type 0 and switches
`current_mode` to 1. -/
theorem findFrom_mode_switch_witness :
    switchScanner.findFrom [(0, 'a')] dotMatchesCharClass =
      some (some ⟨0, ⟨0, 1⟩⟩, switchScannerAfter) ∧
    switchScannerAfter.currentMode = 1 :=
  ⟨by decide,
    (findFrom_mode_switch switchScanner [(0, 'a')] dotMatchesCharClass switchMode0
        ⟨0, ⟨0, 1⟩⟩ switchScannerAfter (by decide) (by decide) (by decide)).1
      1 (by decide)⟩

/-- Witness for the `peek_n` theorem: peeking 1 match on exhausted input
produces `NotFound`, and indeed the first `peek_from` finds no match. -/
theorem peekN_notFound_witness :
    1 ≤ 1 ∧ ∃ s' cur', dotScanner.peekFrom [] dotMatchesCharClass =
      some (Option.none, s', cur') :=
  (peekN_zero_is_matches_and_notFound_origin dotScanner [] dotMatchesCharClass).2
    1 PeekResult.notFound dotScanner (by decide) rfl

/-- The strict priority order of `find_first_longest_match`: `a` beats `b`
when it starts earlier, or starts equally and is longer. -/
def beats (a b : Match) : Prop :=
  a.start < b.start ∨ (a.start = b.start ∧ b.len < a.len)

theorem beats_irrefl (a : Match) : ¬ beats a a := by
  simp only [beats, Match.start, Match.len, Span.len]
  omega

theorem beats_trans {a b c : Match} (h₁ : beats a b) (h₂ : beats b c) : beats a c := by
  simp only [beats, Match.start, Match.len, Span.len] at *
  omega

theorem not_beats_chain {x m y : Match} (h₁ : ¬ beats x m) (h₂ : ¬ beats y x) :
    ¬ beats y m := by
  simp only [beats, Match.start, Match.len, Span.len] at *
  omega

theorem beats_of_beats_of_not_beats {m x y : Match} (h₁ : beats m x)
    (h₂ : ¬ beats y x) : beats m y := by
  simp only [beats, Match.start, Match.len, Span.len] at *
  omega

/-- Behaviour of the `find_first_longest_match` fold: the result is never
beaten by any candidate, and it stems from the accumulator or from the
earliest DFA attaining the optimum. -/
theorem foldl_ffStep_spec :
    ∀ (l : List DfaWithTokenType) (acc : Option Match) (m : Match),
      l.foldl ffStep acc = some m →
      (∀ x, acc = some x → ¬ beats x m) ∧
      (∀ j mj, (l.get? j).bind DfaWithTokenType.currentMatch = some mj → ¬ beats mj m) ∧
      (acc = some m ∨
        ∃ i, (l.get? i).bind DfaWithTokenType.currentMatch = some m ∧
          (∀ x, acc = some x → beats m x) ∧
          (∀ j, j < i → ∀ mj,
            (l.get? j).bind DfaWithTokenType.currentMatch = some mj → beats m mj)) := by
  intro l
  induction l with
  | nil =>
    intro acc m h
    simp only [List.foldl_nil] at h
    subst h
    refine ⟨?_, ?_, Or.inl rfl⟩
    · intro x hx
      cases Option.some.inj hx
      exact beats_irrefl m
    · intro j mj hj
      simp at hj
  | cons d l ih =>
    intro acc m h
    rw [List.foldl_cons] at h
    obtain ⟨H1, H2, H3⟩ := ih (ffStep acc d) m h
    -- case analysis on the head DFA's recorded match and the accumulator
    cases hd : d.currentMatch with
    | none =>
      have hstep : ffStep acc d = acc := by
        unfold ffStep; rw [hd]
      rw [hstep] at H1 H3
      refine ⟨H1, ?_, ?_⟩
      · intro j mj hj
        cases j with
        | zero =>
          simp only [List.get?_cons_zero, Option.some_bind] at hj
          rw [hd] at hj
          exact absurd hj (by simp)
        | succ j' =>
          exact H2 j' mj (by simpa using hj)
      · rcases H3 with h3 | ⟨i, hi, hacc, hearlier⟩
        · exact Or.inl h3
        · refine Or.inr ⟨i + 1, by simpa using hi, hacc, ?_⟩
          intro j hj mj hmj
          cases j with
          | zero =>
            simp only [List.get?_cons_zero, Option.some_bind] at hmj
            rw [hd] at hmj
            exact absurd hmj (by simp)
          | succ j' =>
            exact hearlier j' (by omega) mj (by simpa using hmj)
    | some y =>
      cases hacc0 : acc with
      | none =>
        have hstep : ffStep acc d = some y := by
          unfold ffStep; rw [hd, hacc0]
        rw [hstep] at H1 H3
        have hym : ¬ beats y m := H1 y rfl
        refine ⟨?_, ?_, ?_⟩
        · intro x hx
          exact absurd hx (by simp)
        · intro j mj hj
          cases j with
          | zero =>
            simp only [List.get?_cons_zero, Option.some_bind] at hj
            rw [hd] at hj
            cases Option.some.inj hj
            exact hym
          | succ j' =>
            exact H2 j' mj (by simpa using hj)
        · rcases H3 with h3 | ⟨i, hi, haccb, hearlier⟩
          · -- some y = some m
            cases Option.some.inj h3
            refine Or.inr ⟨0, ?_, ?_, ?_⟩
            · simp only [List.get?_cons_zero, Option.some_bind]
              rw [hd]
            · intro x hx
              exact absurd hx (by simp)
            · intro j hj
              omega
          · refine Or.inr ⟨i + 1, by simpa using hi, ?_, ?_⟩
            · intro x hx
              exact absurd hx (by simp)
            · intro j hj mj hmj
              cases j with
              | zero =>
                simp only [List.get?_cons_zero, Option.some_bind] at hmj
                rw [hd] at hmj
                cases Option.some.inj hmj
                exact haccb _ rfl
              | succ j' =>
                exact hearlier j' (by omega) mj (by simpa using hmj)
      | some x =>
        by_cases hyx : beats y x
        · have hyx' : y.start < x.start ∨ (y.start = x.start ∧ x.len < y.len) := hyx
          have hstep : ffStep acc d = some y := by
            unfold ffStep
            rw [hd, hacc0]
            show (if y.start < x.start ∨ (y.start = x.start ∧ x.len < y.len) then
              some y else some x) = some y
            rw [if_pos hyx']
          rw [hstep] at H1 H3
          have hym : ¬ beats y m := H1 y rfl
          refine ⟨?_, ?_, ?_⟩
          · intro x' hx'
            cases Option.some.inj hx'
            intro hxm
            exact hym (beats_trans hyx hxm)
          · intro j mj hj
            cases j with
            | zero =>
              simp only [List.get?_cons_zero, Option.some_bind] at hj
              rw [hd] at hj
              cases Option.some.inj hj
              exact hym
            | succ j' =>
              exact H2 j' mj (by simpa using hj)
          · rcases H3 with h3 | ⟨i, hi, haccb, hearlier⟩
            · cases Option.some.inj h3
              refine Or.inr ⟨0, ?_, ?_, ?_⟩
              · simp only [List.get?_cons_zero, Option.some_bind]
                rw [hd]
              · intro x' hx'
                cases Option.some.inj hx'
                exact hyx
              · intro j hj
                omega
            · refine Or.inr ⟨i + 1, by simpa using hi, ?_, ?_⟩
              · intro x' hx'
                cases Option.some.inj hx'
                exact beats_trans (haccb y rfl) hyx
              · intro j hj mj hmj
                cases j with
                | zero =>
                  simp only [List.get?_cons_zero, Option.some_bind] at hmj
                  rw [hd] at hmj
                  cases Option.some.inj hmj
                  exact haccb _ rfl
                | succ j' =>
                  exact hearlier j' (by omega) mj (by simpa using hmj)
        · have hyx' : ¬ (y.start < x.start ∨ (y.start = x.start ∧ x.len < y.len)) := hyx
          have hstep : ffStep acc d = some x := by
            unfold ffStep
            rw [hd, hacc0]
            show (if y.start < x.start ∨ (y.start = x.start ∧ x.len < y.len) then
              some y else some x) = some x
            rw [if_neg hyx']
          rw [hstep] at H1 H3
          have hxm : ¬ beats x m := H1 x rfl
          refine ⟨?_, ?_, ?_⟩
          · intro x' hx'
            cases Option.some.inj hx'
            exact hxm
          · intro j mj hj
            cases j with
            | zero =>
              simp only [List.get?_cons_zero, Option.some_bind] at hj
              rw [hd] at hj
              cases Option.some.inj hj
              exact not_beats_chain hxm hyx
            | succ j' =>
              exact H2 j' mj (by simpa using hj)
          · rcases H3 with h3 | ⟨i, hi, haccb, hearlier⟩
            · cases Option.some.inj h3
              exact Or.inl h3
            · refine Or.inr ⟨i + 1, by simpa using hi, ?_, ?_⟩
              · intro x' hx'
                cases Option.some.inj hx'
                exact haccb x rfl
              · intro j hj mj hmj
                cases j with
                | zero =>
                  simp only [List.get?_cons_zero, Option.some_bind] at hmj
                  rw [hd] at hmj
                  cases Option.some.inj hmj
                  exact beats_of_beats_of_not_beats (haccb x rfl) hyx
                | succ j' =>
                  exact hearlier j' (by omega) mj (by simpa using hmj)

end Scangen

namespace Scangen

/-- The winner reported by the shared search is the
`find_first_longest_match` fold over the searched DFAs. -/
theorem search_fst_eq_findFirstLongestMatch (mode : ScannerMode)
    (c : List (Nat × Char)) (f : Char → Nat → Bool) :
    (mode.search c f).1 = findFirstLongestMatch (mode.search c f).2.1 := rfl

/-- C1: when `find_from` (or `peek_from`) returns a match, that match is,
among the matches recorded via `last_match()` by the DFAs of the current
mode after the search, the one with the smallest start; among equal
starts, the one with the greatest length; and among equal start and
length, the one of the DFA listed earliest in the mode's binding list —
and its `token_type` is the one bound to that DFA in the mode
(`DfaWithTokenType.currentMatch` tags the recorded span with the bound
token type). -/
theorem findFrom_returns_priority_winner :
    ∀ (s : Scanner) (c : List (Nat × Char)) (f : Char → Nat → Bool)
      (mode : ScannerMode) (m : Match),
      s.scannerModes.get? s.currentMode = some mode →
      ((∃ s', s.findFrom c f = some (some m, s')) ∨
       (∃ s' rest, s.peekFrom c f = some (some m, s', rest))) →
      ∃ i, ((mode.search c f).2.1.get? i).bind DfaWithTokenType.currentMatch = some m ∧
        ∀ j mj,
          ((mode.search c f).2.1.get? j).bind DfaWithTokenType.currentMatch = some mj →
          m.start ≤ mj.start ∧ (mj.start = m.start → mj.len ≤ m.len) ∧
          (mj.start = m.start → mj.len = m.len → i ≤ j) := by
  intro s c f mode m hget hcall
  have hm : (mode.search c f).1 = some m := by
    rcases hcall with ⟨s', h⟩ | ⟨s', rest, h⟩
    · unfold Scanner.findFrom at h
      rw [hget] at h
      simp only at h
      exact congrArg Prod.fst (Option.some.inj h)
    · unfold Scanner.peekFrom at h
      rw [hget] at h
      simp only at h
      have := congrArg Prod.fst (Option.some.inj h)
      simpa using this
  rw [search_fst_eq_findFirstLongestMatch] at hm
  unfold findFirstLongestMatch at hm
  obtain ⟨_, H2, H3⟩ := foldl_ffStep_spec (mode.search c f).2.1 Option.none m hm
  rcases H3 with h3 | ⟨i, hi, _, hearlier⟩
  · exact absurd h3 (by simp)
  · refine ⟨i, hi, ?_⟩
    intro j mj hmj
    have hnb : ¬ beats mj m := H2 j mj hmj
    refine ⟨?_, ?_, ?_⟩
    · simp only [beats, Match.start, Match.len, Span.len] at hnb ⊢
      omega
    · intro hse
      simp only [Match.start, Match.len, Span.len] at hse ⊢
      simp only [beats, Match.start, Match.len, Span.len] at hnb
      omega
    · intro hse hle
      by_contra hji
      have hb : beats m mj := hearlier j (by omega) mj hmj
      simp only [Match.start, Match.len, Span.len] at hse hle
      simp only [beats, Match.start, Match.len, Span.len] at hb
      omega

/-- The dot scanner's state after matching `"a"` at offset 0. -/
def dotDfaAfterA : Dfa :=
  { dotDfa with matchingState := ⟨.accepting, some 0, some 1⟩, currentState := 1 }

def dotScannerAfterA : Scanner :=
  { scannerModes := [{ dotMode with dfas := [⟨dotDfaAfterA, 0⟩] }], currentMode := 0 }

/-- Witness for the winner-selection theorem: the dot scanner on `"a"`. -/
theorem findFrom_returns_priority_winner_witness :
    ∃ i, ((dotMode.search [(0, 'a')] dotMatchesCharClass).2.1.get? i).bind
        DfaWithTokenType.currentMatch = some ⟨0, ⟨0, 1⟩⟩ ∧
      ∀ j mj,
        ((dotMode.search [(0, 'a')] dotMatchesCharClass).2.1.get? j).bind
          DfaWithTokenType.currentMatch = some mj →
        Match.start ⟨0, ⟨0, 1⟩⟩ ≤ mj.start ∧
        (mj.start = Match.start ⟨0, ⟨0, 1⟩⟩ → mj.len ≤ Match.len ⟨0, ⟨0, 1⟩⟩) ∧
        (mj.start = Match.start ⟨0, ⟨0, 1⟩⟩ → mj.len = Match.len ⟨0, ⟨0, 1⟩⟩ → i ≤ j) :=
  findFrom_returns_priority_winner dotScanner [(0, 'a')] dotMatchesCharClass dotMode
    ⟨0, ⟨0, 1⟩⟩ (by decide) (Or.inl ⟨dotScannerAfterA, by decide⟩)

end Scangen

namespace Scangen

/-! ## C4: peek purity

The scanner state that persists between searches is `current_mode` plus
the DFA tables; the matching states are transient, because every search
begins by resetting the current mode's DFAs.  `Scanner.clean` normalizes
the transient part; two clean-equal scanners behave identically. -/

theorem Dfa.reset_advance (d : Dfa) (i : Nat) (c : Char) (f : Char → Nat → Bool) :
    (d.advance i c f).reset = d.reset := by
  unfold Dfa.advance
  split
  · rfl
  · cases d.findTransition c f with
    | none => rfl
    | some ns =>
      simp only
      split <;> rfl

theorem Dfa.reset_reset (d : Dfa) : d.reset.reset = d.reset := rfl

theorem DfaWithTokenType.reset_advance_token (d : DfaWithTokenType) (i : Nat) (c : Char)
    (f : Char → Nat → Bool) : (d.advance i c f).reset = d.reset := by
  unfold DfaWithTokenType.advance DfaWithTokenType.reset
  simp only [Dfa.reset_advance]

theorem map_reset_advanceActive (f : Char → Nat → Bool) (active : List Nat)
    (i : Nat) (c : Char) :
    ∀ (dfas : List DfaWithTokenType) (idx : Nat),
      (advanceActive f active i c dfas idx).map DfaWithTokenType.reset =
        dfas.map DfaWithTokenType.reset := by
  intro dfas
  induction dfas with
  | nil => intro idx; rfl
  | cons d rest ih =>
    intro idx
    unfold advanceActive
    simp only [List.map_cons, ih (idx + 1)]
    congr 1
    split
    · exact DfaWithTokenType.reset_advance_token d i c f
    · rfl

theorem map_reset_searchLoop (f : Char → Nat → Bool) :
    ∀ (cursor : List (Nat × Char)) (dfas : List DfaWithTokenType) (active : List Nat),
      ((searchLoop f dfas active cursor).1).map DfaWithTokenType.reset =
        dfas.map DfaWithTokenType.reset := by
  intro cursor
  induction cursor with
  | nil => intro dfas active; rfl
  | cons p rest ih =>
    intro dfas active
    obtain ⟨i, c⟩ := p
    unfold searchLoop
    simp only
    split <;> split
    all_goals
      first
        | exact map_reset_advanceActive f active i c dfas 0
        | (rw [ih]; exact map_reset_advanceActive f active i c dfas 0)

/-- Two modes whose DFAs agree after reset run the search identically. -/
theorem ScannerMode.search_congr (m₁ m₂ : ScannerMode)
    (h : m₁.dfas.map DfaWithTokenType.reset = m₂.dfas.map DfaWithTokenType.reset)
    (c : List (Nat × Char)) (f : Char → Nat → Bool) :
    m₁.search c f = m₂.search c f := by
  have hlen : m₁.dfas.length = m₂.dfas.length := by
    have := congrArg List.length h
    simpa using this
  unfold ScannerMode.search
  rw [h, hlen]

def ScannerMode.clean (m : ScannerMode) : ScannerMode :=
  { m with dfas := m.dfas.map DfaWithTokenType.reset }

def Scanner.clean (s : Scanner) : Scanner :=
  { s with scannerModes := s.scannerModes.map ScannerMode.clean }

theorem ScannerMode.clean_set_dfas (m : ScannerMode) (dfas : List DfaWithTokenType)
    (h : dfas.map DfaWithTokenType.reset = m.dfas.map DfaWithTokenType.reset) :
    ScannerMode.clean { m with dfas := dfas } = ScannerMode.clean m := by
  unfold ScannerMode.clean
  simp only [h]

end Scangen

namespace Scangen

theorem list_set_of_get? {α : Type _} :
    ∀ (l : List α) (n : Nat) (a : α), l.get? n = some a → l.set n a = l := by
  intro l
  induction l with
  | nil => intro n a h; simp at h
  | cons x xs ih =>
    intro n a h
    cases n with
    | zero =>
      simp only [List.get?_cons_zero, Option.some.injEq] at h
      simp [h]
    | succ n' =>
      simp only [List.get?_cons_succ] at h
      simp only [List.set_cons_succ, List.cons.injEq, true_and]
      exact ih n' a h

theorem clean_currentMode (s : Scanner) : s.clean.currentMode = s.currentMode := rfl

theorem clean_scannerModes (s : Scanner) :
    s.clean.scannerModes = s.scannerModes.map ScannerMode.clean := rfl

theorem mclean_name (m : ScannerMode) : m.clean.name = m.name := rfl

theorem mclean_transitions (m : ScannerMode) : m.clean.transitions = m.transitions := rfl

theorem mclean_dfas (m : ScannerMode) :
    m.clean.dfas = m.dfas.map DfaWithTokenType.reset := rfl

/-- Two clean-equal scanners agree on the outcome of `find_from` up to
cleaning the returned scanner. -/
theorem Scanner.findFrom_congr (s₁ s₂ : Scanner) (h : s₁.clean = s₂.clean)
    (c : List (Nat × Char)) (f : Char → Nat → Bool) :
    (s₁.findFrom c f).map (fun r => (r.1, r.2.clean)) =
      (s₂.findFrom c f).map (fun r => (r.1, r.2.clean)) := by
  have hcm : s₁.currentMode = s₂.currentMode := by
    simpa [clean_currentMode] using congrArg Scanner.currentMode h
  have hmods : s₁.scannerModes.map ScannerMode.clean =
      s₂.scannerModes.map ScannerMode.clean := by
    simpa [clean_scannerModes] using congrArg Scanner.scannerModes h
  have hget : (s₁.scannerModes.get? s₁.currentMode).map ScannerMode.clean =
      (s₂.scannerModes.get? s₂.currentMode).map ScannerMode.clean := by
    rw [← List.get?_map, ← List.get?_map, hmods, hcm]
  unfold Scanner.findFrom
  cases h₁ : s₁.scannerModes.get? s₁.currentMode with
  | none =>
    cases h₂ : s₂.scannerModes.get? s₂.currentMode with
    | none => rfl
    | some m₂ => rw [h₁, h₂] at hget; exact absurd hget (by simp)
  | some m₁ =>
    cases h₂ : s₂.scannerModes.get? s₂.currentMode with
    | none => rw [h₁, h₂] at hget; exact absurd hget (by simp)
    | some m₂ =>
      rw [h₁, h₂] at hget
      have hmm : m₁.clean = m₂.clean := by simpa using hget
      have hname : m₁.name = m₂.name := by
        simpa [mclean_name] using congrArg ScannerMode.name hmm
      have htrans : m₁.transitions = m₂.transitions := by
        simpa [mclean_transitions] using congrArg ScannerMode.transitions hmm
      have hdfas : m₁.dfas.map DfaWithTokenType.reset =
          m₂.dfas.map DfaWithTokenType.reset := by
        simpa [mclean_dfas] using congrArg ScannerMode.dfas hmm
      have hsearch : m₁.search c f = m₂.search c f :=
        ScannerMode.search_congr m₁ m₂ hdfas c f
      have hmode' : ({ m₁ with dfas := (m₂.search c f).2.1 } : ScannerMode) =
          { m₂ with dfas := (m₂.search c f).2.1 } := by
        obtain ⟨n₁, d₁, t₁⟩ := m₁
        obtain ⟨n₂, d₂, t₂⟩ := m₂
        simp only [ScannerMode.mk.injEq]
        exact ⟨hname, trivial, htrans⟩
      have hsets : ∀ (M : ScannerMode),
          (s₁.scannerModes.set s₁.currentMode M).map ScannerMode.clean =
          (s₂.scannerModes.set s₂.currentMode M).map ScannerMode.clean := by
        intro M
        rw [List.map_set, List.map_set, hmods, hcm]
      simp only [Option.map_some']
      rw [hsearch, hmode']
      cases hw : (m₂.search c f).1 with
      | none =>
        simp only
        congr 1
        refine Prod.ext rfl ?_
        show Scanner.clean _ = Scanner.clean _
        simp only [Scanner.clean, Scanner.mk.injEq]
        exact ⟨hsets _, hcm⟩
      | some mm =>
        simp only
        cases hht : ScannerMode.hasTransition
            { m₂ with dfas := (m₂.search c f).2.1 } mm.tokenType with
        | none =>
          simp only
          congr 1
          refine Prod.ext rfl ?_
          show Scanner.clean _ = Scanner.clean _
          simp only [Scanner.clean, Scanner.mk.injEq]
          exact ⟨hsets _, hcm⟩
        | some nm =>
          simp only
          congr 1
          refine Prod.ext rfl ?_
          show Scanner.clean _ = Scanner.clean _
          simp only [Scanner.clean, Scanner.mk.injEq]
          exact ⟨hsets _, trivial⟩

end Scangen

namespace Scangen

theorem DfaWithTokenType.reset_reset_token (d : DfaWithTokenType) :
    d.reset.reset = d.reset := rfl

theorem map_reset_idem (l : List DfaWithTokenType) :
    (l.map DfaWithTokenType.reset).map DfaWithTokenType.reset =
      l.map DfaWithTokenType.reset := by
  rw [List.map_map]
  exact List.map_congr_left fun d _ => DfaWithTokenType.reset_reset_token d

/-- `peek_from` only touches the matching states of the current mode's
DFAs: the cleaned scanner and the current mode are unchanged. -/
theorem Scanner.peekFrom_residual :
    ∀ (s : Scanner) (c : List (Nat × Char)) (f : Char → Nat → Bool)
      (om : Option Match) (s' : Scanner) (rest : List (Nat × Char)),
      s.peekFrom c f = some (om, s', rest) →
      s'.clean = s.clean ∧ s'.currentMode = s.currentMode := by
  intro s c f om s' rest h
  unfold Scanner.peekFrom at h
  cases hget : s.scannerModes.get? s.currentMode with
  | none => rw [hget] at h; exact absurd h (by simp)
  | some mode =>
    rw [hget] at h
    simp only at h
    have hs' := congrArg (fun r => r.2.1) (Option.some.inj h)
    simp only at hs'
    subst hs'
    refine ⟨?_, rfl⟩
    have hdfas : ((mode.search c f).2.1).map DfaWithTokenType.reset =
        mode.dfas.map DfaWithTokenType.reset := by
      show ((searchLoop f (mode.dfas.map DfaWithTokenType.reset)
          (List.range mode.dfas.length) c).1).map DfaWithTokenType.reset =
        mode.dfas.map DfaWithTokenType.reset
      rw [map_reset_searchLoop]
      exact map_reset_idem mode.dfas
    have hmode : ScannerMode.clean { mode with dfas := (mode.search c f).2.1 } =
        ScannerMode.clean mode := ScannerMode.clean_set_dfas mode _ hdfas
    show Scanner.clean _ = Scanner.clean _
    simp only [Scanner.clean, Scanner.mk.injEq]
    refine ⟨?_, trivial⟩
    rw [List.map_set, hmode]
    apply list_set_of_get?
    rw [List.get?_map, hget]
    rfl

/-- `has_transition` is determined by the cleaned scanner. -/
theorem Scanner.hasTransitionM_congr (s₁ s₂ : Scanner) (h : s₁.clean = s₂.clean)
    (t : Nat) : s₁.hasTransitionM t = s₂.hasTransitionM t := by
  have hcm : s₁.currentMode = s₂.currentMode := by
    simpa [clean_currentMode] using congrArg Scanner.currentMode h
  have hmods : s₁.scannerModes.map ScannerMode.clean =
      s₂.scannerModes.map ScannerMode.clean := by
    simpa [clean_scannerModes] using congrArg Scanner.scannerModes h
  have hget : (s₁.scannerModes.get? s₁.currentMode).map ScannerMode.clean =
      (s₂.scannerModes.get? s₂.currentMode).map ScannerMode.clean := by
    rw [← List.get?_map, ← List.get?_map, hmods, hcm]
  unfold Scanner.hasTransitionM
  cases h₁ : s₁.scannerModes.get? s₁.currentMode with
  | none =>
    cases h₂ : s₂.scannerModes.get? s₂.currentMode with
    | none => rfl
    | some m₂ => rw [h₁, h₂] at hget; exact absurd hget (by simp)
  | some m₁ =>
    cases h₂ : s₂.scannerModes.get? s₂.currentMode with
    | none => rw [h₁, h₂] at hget; exact absurd hget (by simp)
    | some m₂ =>
      rw [h₁, h₂] at hget
      have hmm : m₁.clean = m₂.clean := by simpa using hget
      have htrans : m₁.transitions = m₂.transitions := by
        simpa [mclean_transitions] using congrArg ScannerMode.transitions hmm
      simp only [Option.map_some', ScannerMode.hasTransition, htrans]

/-- Two clean-equal scanners agree on the outcome of `peek_from` up to
cleaning the returned scanner. -/
theorem Scanner.peekFrom_congr (s₁ s₂ : Scanner) (h : s₁.clean = s₂.clean)
    (c : List (Nat × Char)) (f : Char → Nat → Bool) :
    (s₁.peekFrom c f).map (fun r => (r.1, r.2.1.clean, r.2.2)) =
      (s₂.peekFrom c f).map (fun r => (r.1, r.2.1.clean, r.2.2)) := by
  have hcm : s₁.currentMode = s₂.currentMode := by
    simpa [clean_currentMode] using congrArg Scanner.currentMode h
  have hmods : s₁.scannerModes.map ScannerMode.clean =
      s₂.scannerModes.map ScannerMode.clean := by
    simpa [clean_scannerModes] using congrArg Scanner.scannerModes h
  have hget : (s₁.scannerModes.get? s₁.currentMode).map ScannerMode.clean =
      (s₂.scannerModes.get? s₂.currentMode).map ScannerMode.clean := by
    rw [← List.get?_map, ← List.get?_map, hmods, hcm]
  unfold Scanner.peekFrom
  cases h₁ : s₁.scannerModes.get? s₁.currentMode with
  | none =>
    cases h₂ : s₂.scannerModes.get? s₂.currentMode with
    | none => rfl
    | some m₂ => rw [h₁, h₂] at hget; exact absurd hget (by simp)
  | some m₁ =>
    cases h₂ : s₂.scannerModes.get? s₂.currentMode with
    | none => rw [h₁, h₂] at hget; exact absurd hget (by simp)
    | some m₂ =>
      rw [h₁, h₂] at hget
      have hmm : m₁.clean = m₂.clean := by simpa using hget
      have hname : m₁.name = m₂.name := by
        simpa [mclean_name] using congrArg ScannerMode.name hmm
      have htrans : m₁.transitions = m₂.transitions := by
        simpa [mclean_transitions] using congrArg ScannerMode.transitions hmm
      have hdfas : m₁.dfas.map DfaWithTokenType.reset =
          m₂.dfas.map DfaWithTokenType.reset := by
        simpa [mclean_dfas] using congrArg ScannerMode.dfas hmm
      have hsearch : m₁.search c f = m₂.search c f :=
        ScannerMode.search_congr m₁ m₂ hdfas c f
      have hmode' : ({ m₁ with dfas := (m₂.search c f).2.1 } : ScannerMode) =
          { m₂ with dfas := (m₂.search c f).2.1 } := by
        obtain ⟨n₁, d₁, t₁⟩ := m₁
        obtain ⟨n₂, d₂, t₂⟩ := m₂
        simp only [ScannerMode.mk.injEq]
        exact ⟨hname, trivial, htrans⟩
      simp only [Option.map_some']
      rw [hsearch, hmode']
      congr 1
      refine Prod.ext rfl (Prod.ext ?_ rfl)
      show Scanner.clean _ = Scanner.clean _
      simp only [Scanner.clean, Scanner.mk.injEq]
      refine ⟨?_, hcm⟩
      rw [List.map_set, List.map_set, hmods, hcm]

end Scangen

namespace Scangen

/-- Clean-equal scanners agree on `next_match` (retry loop). -/
theorem nextMatchLoop_congr (f : Char → Nat → Bool) :
    ∀ (cursor : List (Nat × Char)) (s₁ s₂ : Scanner), s₁.clean = s₂.clean →
      (nextMatchLoop f s₁ cursor).map (fun r => (r.1, r.2.1.clean, r.2.2)) =
        (nextMatchLoop f s₂ cursor).map (fun r => (r.1, r.2.1.clean, r.2.2)) := by
  intro cursor
  induction cursor with
  | nil =>
    intro s₁ s₂ h
    simp only [nextMatchLoop, Option.map_some']
    rw [h]
  | cons hd rest ih =>
    intro s₁ s₂ h
    have hff := Scanner.findFrom_congr s₁ s₂ h rest f
    unfold nextMatchLoop
    cases h₁ : s₁.findFrom rest f with
    | none =>
      cases h₂ : s₂.findFrom rest f with
      | none => rfl
      | some r₂ => rw [h₁, h₂] at hff; exact absurd hff (by simp)
    | some r₁ =>
      cases h₂ : s₂.findFrom rest f with
      | none => rw [h₁, h₂] at hff; exact absurd hff (by simp)
      | some r₂ =>
        rw [h₁, h₂] at hff
        obtain ⟨om₁, t₁⟩ := r₁
        obtain ⟨om₂, t₂⟩ := r₂
        have hpair : (om₁, t₁.clean) = (om₂, t₂.clean) := by simpa using hff
        have hom : om₁ = om₂ := congrArg Prod.fst hpair
        have hcl : t₁.clean = t₂.clean := congrArg Prod.snd hpair
        subst hom
        cases om₁ with
        | none => exact ih t₁ t₂ hcl
        | some m =>
          simp only [Option.map_some']
          rw [hcl]

/-- Clean-equal scanners agree on `next_match`. -/
theorem nextMatch_congr (f : Char → Nat → Bool) (c : List (Nat × Char))
    (s₁ s₂ : Scanner) (h : s₁.clean = s₂.clean) :
    (nextMatch s₁ c f).map (fun r => (r.1, r.2.1.clean, r.2.2)) =
      (nextMatch s₂ c f).map (fun r => (r.1, r.2.1.clean, r.2.2)) := by
  have hff := Scanner.findFrom_congr s₁ s₂ h c f
  unfold nextMatch
  cases h₁ : s₁.findFrom c f with
  | none =>
    cases h₂ : s₂.findFrom c f with
    | none => rfl
    | some r₂ => rw [h₁, h₂] at hff; exact absurd hff (by simp)
  | some r₁ =>
    cases h₂ : s₂.findFrom c f with
    | none => rw [h₁, h₂] at hff; exact absurd hff (by simp)
    | some r₂ =>
      rw [h₁, h₂] at hff
      obtain ⟨om₁, t₁⟩ := r₁
      obtain ⟨om₂, t₂⟩ := r₂
      have hpair : (om₁, t₁.clean) = (om₂, t₂.clean) := by simpa using hff
      have hom : om₁ = om₂ := congrArg Prod.fst hpair
      have hcl : t₁.clean = t₂.clean := congrArg Prod.snd hpair
      subst hom
      cases om₁ with
      | none => exact nextMatchLoop_congr f c t₁ t₂ hcl
      | some m =>
        simp only [Option.map_some']
        rw [hcl]

/-- The scanner returned by the `peek_n` loop is clean-equal to the input
scanner and keeps `current_mode`. -/
theorem peekNLoop_residual (f : Char → Nat → Bool) :
    ∀ (n : Nat) (s : Scanner) (cur : List (Nat × Char)) (acc : List Match)
      (out : List Match × Bool × Nat × Scanner),
      peekNLoop f s n cur acc = some out →
      out.2.2.2.clean = s.clean ∧ out.2.2.2.currentMode = s.currentMode := by
  intro n
  induction n with
  | zero =>
    intro s cur acc out h
    simp only [peekNLoop] at h
    cases Option.some.inj h
    exact ⟨rfl, rfl⟩
  | succ k ih =>
    intro s cur acc out h
    simp only [peekNLoop] at h
    cases hp : s.peekFrom cur f with
    | none => rw [hp] at h; exact absurd h (by simp)
    | some r =>
      obtain ⟨om, s₁, cur₁⟩ := r
      obtain ⟨hc₁, hm₁⟩ := Scanner.peekFrom_residual s cur f om s₁ cur₁ hp
      rw [hp] at h
      cases om with
      | none =>
        simp only at h
        cases Option.some.inj h
        exact ⟨hc₁, hm₁⟩
      | some m =>
        simp only at h
        cases ht : s₁.hasTransitionM m.tokenType with
        | none => rw [ht] at h; exact absurd h (by simp)
        | some o =>
          rw [ht] at h
          cases o with
          | none =>
            obtain ⟨hc₂, hm₂⟩ := ih s₁ cur₁ (acc ++ [m]) out h
            exact ⟨hc₂.trans hc₁, hm₂.trans hm₁⟩
          | some mode =>
            simp only at h
            cases Option.some.inj h
            exact ⟨hc₁, hm₁⟩

/-- Clean-equal scanners agree on the visible outcome of the `peek_n` loop. -/
theorem peekNLoop_congr (f : Char → Nat → Bool) :
    ∀ (n : Nat) (cur : List (Nat × Char)) (acc : List Match) (s₁ s₂ : Scanner),
      s₁.clean = s₂.clean →
      (peekNLoop f s₁ n cur acc).map (fun r => (r.1, r.2.1, r.2.2.1)) =
        (peekNLoop f s₂ n cur acc).map (fun r => (r.1, r.2.1, r.2.2.1)) := by
  intro n
  induction n with
  | zero => intro cur acc s₁ s₂ h; rfl
  | succ k ih =>
    intro cur acc s₁ s₂ h
    have hpf := Scanner.peekFrom_congr s₁ s₂ h cur f
    unfold peekNLoop
    cases h₁ : s₁.peekFrom cur f with
    | none =>
      cases h₂ : s₂.peekFrom cur f with
      | none => rfl
      | some r₂ => rw [h₁, h₂] at hpf; exact absurd hpf (by simp)
    | some r₁ =>
      cases h₂ : s₂.peekFrom cur f with
      | none => rw [h₁, h₂] at hpf; exact absurd hpf (by simp)
      | some r₂ =>
        rw [h₁, h₂] at hpf
        obtain ⟨om₁, t₁, cur₁⟩ := r₁
        obtain ⟨om₂, t₂, cur₂⟩ := r₂
        have htrip : (om₁, t₁.clean, cur₁) = (om₂, t₂.clean, cur₂) := by simpa using hpf
        have hom : om₁ = om₂ := congrArg Prod.fst htrip
        have hcl : t₁.clean = t₂.clean := congrArg (fun x => x.2.1) htrip
        have hcur : cur₁ = cur₂ := congrArg (fun x => x.2.2) htrip
        subst hom
        subst hcur
        cases om₁ with
        | none => rfl
        | some m =>
          simp only
          rw [Scanner.hasTransitionM_congr t₁ t₂ hcl m.tokenType]
          cases ht : t₂.hasTransitionM m.tokenType with
          | none => rfl
          | some o =>
            cases o with
            | none => exact ih cur₁ (acc ++ [m]) t₁ t₂ hcl
            | some mode => rfl

/-- Clean-equal scanners agree on the `PeekResult` of `peek_n`. -/
theorem peekN_congr (s₁ s₂ : Scanner) (h : s₁.clean = s₂.clean)
    (c : List (Nat × Char)) (f : Char → Nat → Bool) (n : Nat) :
    (peekN s₁ c f n).map Prod.fst = (peekN s₂ c f n).map Prod.fst := by
  have hl := peekNLoop_congr f n c [] s₁ s₂ h
  unfold peekN
  cases h₁ : peekNLoop f s₁ n c [] with
  | none =>
    cases h₂ : peekNLoop f s₂ n c [] with
    | none => rfl
    | some r₂ => rw [h₁, h₂] at hl; exact absurd hl (by simp)
  | some r₁ =>
    cases h₂ : peekNLoop f s₂ n c [] with
    | none => rw [h₁, h₂] at hl; exact absurd hl (by simp)
    | some r₂ =>
      rw [h₁, h₂] at hl
      obtain ⟨ms₁, b₁, nm₁, t₁⟩ := r₁
      obtain ⟨ms₂, b₂, nm₂, t₂⟩ := r₂
      have htrip : (ms₁, b₁, nm₁) = (ms₂, b₂, nm₂) := by simpa using hl
      have hms : ms₁ = ms₂ := congrArg Prod.fst htrip
      have hb : b₁ = b₂ := congrArg (fun x => x.2.1) htrip
      have hnm : nm₁ = nm₂ := congrArg (fun x => x.2.2) htrip
      subst hms; subst hb; subst hnm
      rfl

end Scangen

namespace Scangen

/-- C4: `peek_n` followed by `next_match` yields the same first match as
calling `next_match` without the preceding peek: the peek works on a
cloned cursor via `peek_from`, never changes `current_mode`, and leaves
no observable scanner state behind (only matching states that the next
search resets), so repeated calls of `peek_n` with the same arguments
return the same result. -/
theorem peekN_pure :
    ∀ (s : Scanner) (c : List (Nat × Char)) (f : Char → Nat → Bool) (n : Nat)
      (res : PeekResult) (s₂ : Scanner),
      peekN s c f n = some (res, s₂) →
      s₂.currentMode = s.currentMode ∧
      (nextMatch s₂ c f).map (fun r => (r.1, r.2.2)) =
        (nextMatch s c f).map (fun r => (r.1, r.2.2)) ∧
      (peekN s₂ c f n).map Prod.fst = some res := by
  intro s c f n res s₂ h
  have hloop : ∃ out, peekNLoop f s n c [] = some out ∧ out.2.2.2 = s₂ := by
    unfold peekN at h
    cases hl : peekNLoop f s n c [] with
    | none => rw [hl] at h; exact absurd h (by simp)
    | some out =>
      rw [hl] at h
      refine ⟨out, rfl, ?_⟩
      obtain ⟨ms, b, nm, t⟩ := out
      simpa using congrArg Prod.snd (Option.some.inj h)
  obtain ⟨out, hl, hout⟩ := hloop
  obtain ⟨hc, hm⟩ := peekNLoop_residual f n s c [] out hl
  rw [hout] at hc hm
  refine ⟨hm, ?_, ?_⟩
  · have hnc := nextMatch_congr f c s₂ s hc
    have hproj := congrArg
      (Option.map (fun x : Option Match × Scanner × List (Nat × Char) => (x.1, x.2.2))) hnc
    simpa [Option.map_map, Function.comp] using hproj
  · rw [peekN_congr s₂ s hc c f n, h]
    rfl

/-- The dot scanner's state after peeking one match on `"ab"`. -/
def dotDfaPeeked : Dfa :=
  { dotDfa with matchingState := ⟨.longest, some 0, some 1⟩, currentState := 1 }

def dotScannerPeeked : Scanner :=
  { scannerModes := [{ dotMode with dfas := [⟨dotDfaPeeked, 0⟩] }], currentMode := 0 }

/-- Witness for peek purity: peeking one match of `"ab"` on the dot
scanner, then searching, agrees with searching directly. -/
theorem peekN_pure_witness :
    dotScannerPeeked.currentMode = dotScanner.currentMode ∧
    (nextMatch dotScannerPeeked (charIndices ['a', 'b']) dotMatchesCharClass).map
        (fun r => (r.1, r.2.2)) =
      (nextMatch dotScanner (charIndices ['a', 'b']) dotMatchesCharClass).map
        (fun r => (r.1, r.2.2)) ∧
    (peekN dotScannerPeeked (charIndices ['a', 'b']) dotMatchesCharClass 1).map Prod.fst =
      some (PeekResult.matches [⟨0, ⟨0, 1⟩⟩]) :=
  peekN_pure dotScanner (charIndices ['a', 'b']) dotMatchesCharClass 1
    (PeekResult.matches [⟨0, ⟨0, 1⟩⟩]) dotScannerPeeked (by decide)

end Scangen

namespace Scangen

/-! ## Compile-time pipeline (`src/ast.rs`, `src/nfa.rs`,
`src/multi_pattern_nfa.rs`, `src/dfa.rs`)

The compile-time code lives in its own modules; it is embedded in the
namespace `CT`.  Transition labels are the character-class ASTs that the
NFA builder actually attaches (`Ast::Literal` and `Ast::Dot`), compared
by their canonical form (`ComparableAst` ignores spans). -/

namespace CT

inductive CAst where
  | literal (c : Char)
  | dot
  deriving Repr, DecidableEq

/-- Repetition operators of the regex AST. -/
inductive RepetitionKind where
  | zeroOrOne
  | zeroOrMore
  | oneOrMore
  | exactly (n : Nat)
  | atLeast (n : Nat)
  | bounded (least most : Nat)
  deriving Repr, DecidableEq

/-- The regex AST consumed by the NFA builder (`regex_syntax::ast::Ast`).
Payloads of the unsupported variants are irrelevant: `TryFrom<Ast> for
Nfa` (`src/ast.rs`) maps all of them to `UnsupportedFeature`. -/
inductive Ast where
  | empty
  | flags
  | literal (c : Char)
  | dot
  | assertion
  | classUnicode
  | classPerl
  | classBracketed
  | repetition (kind : RepetitionKind) (inner : Ast)
  | group (inner : Ast)
  | alternation (asts : List Ast)
  | concat (asts : List Ast)

/-- `NfaState` (`src/nfa.rs`): ε-edges and labeled edges. -/
structure NfaState where
  state : Nat
  epsilonTransitions : List Nat
  transitions : List (CAst × Nat)
  deriving Repr, DecidableEq

instance : Inhabited NfaState := ⟨⟨0, [], []⟩⟩

def NfaState.isEmpty (s : NfaState) : Bool :=
  s.transitions.isEmpty && s.epsilonTransitions.isEmpty

def NfaState.offset (s : NfaState) (o : Nat) : NfaState :=
  { state := s.state + o,
    epsilonTransitions := s.epsilonTransitions.map (· + o),
    transitions := s.transitions.map fun t => (t.1, t.2 + o) }

/-- `Nfa` (`src/nfa.rs`). -/
structure Nfa where
  states : List NfaState
  startState : Nat
  endState : Nat
  deriving Repr, DecidableEq

/-- In-place update of `states[i]`. -/
def listModify {α : Type _} (g : α → α) : List α → Nat → List α
  | [], _ => []
  | x :: xs, 0 => g x :: xs
  | x :: xs, n + 1 => x :: listModify g xs n

namespace Nfa

def new : Nfa := { states := [default], startState := 0, endState := 0 }

def isEmpty (n : Nfa) : Bool :=
  n.startState = 0 && n.endState = 0 && n.states.length = 1 &&
    (n.states.getD 0 default).isEmpty

def addTransition (n : Nfa) (from_ : Nat) (chars : CAst) (target : Nat) : Nfa :=
  let states := listModify
    (fun st => { st with transitions := st.transitions ++ [(chars, target)] })
    n.states from_
  { n with states := states }

def addEpsilonTransition (n : Nfa) (from_ : Nat) (target : Nat) : Nfa :=
  let states := listModify
    (fun st => { st with epsilonTransitions := st.epsilonTransitions ++ [target] })
    n.states from_
  { n with states := states }

/-- `Nfa::new_state`: appends a fresh state and returns its id. -/
def newState (n : Nfa) : Nat × Nfa :=
  (n.states.length, { n with states := n.states ++ [⟨n.states.length, [], []⟩] })

/-- `Nfa::shift_ids`. -/
def shiftIds (n : Nfa) (offset : Nat) : Nfa :=
  { states := n.states.map (NfaState.offset · offset),
    startState := n.startState + offset,
    endState := n.endState + offset }

/-- `Nfa::append`. -/
def append (n : Nfa) (other : Nfa) : Nfa :=
  { n with states := n.states ++ other.states }

/-- `Nfa::concat`. -/
def concat (n : Nfa) (other : Nfa) : Nfa :=
  if n.isEmpty then
    { states := other.states, startState := other.startState,
      endState := other.endState }
  else
    let shifted := other.shiftIds n.states.length
    let n := n.append shifted
    let n := n.addEpsilonTransition n.endState shifted.startState
    { n with endState := shifted.endState }

/-- `Nfa::alternation`. -/
def alternation (n : Nfa) (other : Nfa) : Nfa :=
  if n.isEmpty then
    { states := other.states, startState := other.startState,
      endState := other.endState }
  else
    let shifted := other.shiftIds n.states.length
    let n := n.append shifted
    let (start, n) := n.newState
    let n := n.addEpsilonTransition start n.startState
    let n := n.addEpsilonTransition start shifted.startState
    let (stop, n) := n.newState
    let n := n.addEpsilonTransition n.endState stop
    let n := n.addEpsilonTransition shifted.endState stop
    { n with startState := start, endState := stop }

/-- `Nfa::zero_or_one`. -/
def zeroOrOne (n : Nfa) : Nfa :=
  let (start, n) := n.newState
  let n := n.addEpsilonTransition start n.startState
  let n := n.addEpsilonTransition start n.endState
  { n with startState := start }

/-- `Nfa::one_or_more`. -/
def oneOrMore (n : Nfa) : Nfa :=
  let (start, n) := n.newState
  let n := n.addEpsilonTransition start n.startState
  let (stop, n) := n.newState
  let n := n.addEpsilonTransition n.endState stop
  let n := n.addEpsilonTransition n.endState n.startState
  { n with startState := start, endState := stop }

/-- `Nfa::zero_or_more`. -/
def zeroOrMore (n : Nfa) : Nfa :=
  let (start, n) := n.newState
  let n := n.addEpsilonTransition start n.startState
  let n := n.addEpsilonTransition start n.endState
  let (stop, n) := n.newState
  let n := n.addEpsilonTransition n.endState stop
  let n := n.addEpsilonTransition n.endState n.startState
  { n with startState := start, endState := stop }

end Nfa

/-- `n` concatenated copies, the `for _ in 0..c` loops of the
`Repetition` arm. -/
def concatCopies (base : Nfa) : Nat → Nfa → Nfa
  | 0, acc => acc
  | k + 1, acc => concatCopies base k (acc.concat base)

mutual

/-- `TryFrom<Ast> for Nfa` (`src/ast.rs`). -/
def toNfa : Ast → Except Unit Nfa
  | .empty => .ok Nfa.new
  | .flags => .error ()
  | .literal c =>
    let nfa := Nfa.new
    let start := nfa.endState
    let (stop, nfa) := nfa.newState
    let nfa := { nfa with endState := stop }
    .ok (nfa.addTransition start (.literal c) stop)
  | .dot =>
    let nfa := Nfa.new
    let start := nfa.endState
    let (stop, nfa) := nfa.newState
    let nfa := { nfa with endState := stop }
    .ok (nfa.addTransition start .dot stop)
  | .assertion => .error ()
  | .classUnicode => .error ()
  | .classPerl => .error ()
  | .classBracketed => .error ()
  | .repetition kind inner => do
    let nfa2 ← toNfa inner
    match kind with
    | .zeroOrOne => pure nfa2.zeroOrOne
    | .zeroOrMore => pure nfa2.zeroOrMore
    | .oneOrMore => pure nfa2.oneOrMore
    | .exactly c => pure (concatCopies nfa2 c Nfa.new)
    | .atLeast c => pure ((concatCopies nfa2 c Nfa.new).concat nfa2.zeroOrMore)
    | .bounded least most =>
      pure (concatCopies nfa2.zeroOrOne (most - least)
        (concatCopies nfa2 least Nfa.new))
  | .group inner => toNfa inner
  | .alternation asts => toNfaAlt asts Nfa.new
  | .concat asts => toNfaCat asts Nfa.new

/-- The `Ast::Alternation` loop: fold `alternation` over the branches. -/
def toNfaAlt : List Ast → Nfa → Except Unit Nfa
  | [], acc => .ok acc
  | a :: rest, acc => do
    let nfa2 ← toNfa a
    toNfaAlt rest (acc.alternation nfa2)

/-- The `Ast::Concat` loop: fold `concat` over the parts. -/
def toNfaCat : List Ast → Nfa → Except Unit Nfa
  | [], acc => .ok acc
  | a :: rest, acc => do
    let nfa2 ← toNfa a
    toNfaCat rest (acc.concat nfa2)

end

end CT

end Scangen

namespace Scangen

namespace CT

/-! ### Multi-pattern NFA (`src/multi_pattern_nfa.rs`)

`BTreeMap`s become association lists kept sorted by key via
`amInsert`; `BTreeSet`s become strictly sorted `List Nat` via
`sortedInsertNat` (the composite of `sort_unstable` + `dedup`). -/

/-- `BTreeMap::insert` on a sorted association list (overwrites). -/
def amInsert : List (Nat × Nat) → Nat → Nat → List (Nat × Nat)
  | [], k, v => [(k, v)]
  | (k', v') :: rest, k, v =>
    if k < k' then (k, v) :: (k', v') :: rest
    else if k = k' then (k, v) :: rest
    else (k', v') :: amInsert rest k v

/-- Insertion into a strictly sorted `Nat` list (skips duplicates). -/
def sortedInsertNat (x : Nat) : List Nat → List Nat
  | [] => [x]
  | y :: ys =>
    if x < y then x :: y :: ys
    else if x = y then y :: ys
    else y :: sortedInsertNat x ys

/-- `sort_unstable` followed by `dedup`: the strictly sorted list of the
set of elements. -/
def sortDedup (l : List Nat) : List Nat := l.foldr sortedInsertNat []

/-- `MultiNfaState` (`src/multi_pattern_nfa.rs`): labeled edges carry
interned class ids. -/
structure MState where
  state : Nat
  epsilonTransitions : List Nat
  transitions : List (Nat × Nat)
  deriving Repr, DecidableEq

instance : Inhabited MState := ⟨⟨0, [], []⟩⟩

/-- `MultiPatternNfa`; patterns are identified by their pattern string
(used only for the duplicate check of `add_pattern`), the parsed AST is
supplied alongside (the regex parser is an external collaborator). -/
structure MultiPatternNfa where
  states : List MState
  patterns : List String
  acceptingStates : List (Nat × Nat)
  charClasses : List CAst
  deriving Repr, DecidableEq

namespace MultiPatternNfa

def new : MultiPatternNfa :=
  { states := [default], patterns := [], acceptingStates := [], charClasses := [] }

/-- Intern a labeled edge's class AST (`NfaWithCharClasses::append`'s
class conversion): reuse the id of an equal class or append a fresh one. -/
def internClass (classes : List CAst) (a : CAst) : Nat × List CAst :=
  match classes.findIdx? (fun c => c = a) with
  | some id => (id, classes)
  | Option.none => (classes.length, classes ++ [a])

/-- Convert one per-pattern NFA state into a multi-NFA state, interning
its class labels. -/
def convertState (st : NfaState) (classes : List CAst) : MState × List CAst :=
  let r := st.transitions.foldl
    (fun (acc : List (Nat × Nat) × List CAst) t =>
      let (id, classes) := internClass acc.2 t.1
      (acc.1 ++ [(id, t.2)], classes))
    ([], classes)
  (⟨st.state, st.epsilonTransitions, r.1⟩, r.2)

/-- `NfaWithCharClasses::append`. -/
def appendNfa (m : MultiPatternNfa) (nfa : Nfa) : MultiPatternNfa :=
  let r := nfa.states.foldl
    (fun (acc : List MState × List CAst) st =>
      let (ms, classes) := convertState st acc.2
      (acc.1 ++ [ms], classes))
    (m.states, m.charClasses)
  { m with states := r.1, charClasses := r.2 }

/-- `MultiPatternNfa::add_pattern`. -/
def addPattern (m : MultiPatternNfa) (pattern : String) (ast : Ast) :
    Except Unit (Nat × MultiPatternNfa) := do
  match m.patterns.findIdx? (fun p => p = pattern) with
  | some id => return (id, m)
  | Option.none =>
    let patternId := m.patterns.length
    let nfa ← toNfa ast
    let m := { m with patterns := m.patterns ++ [pattern] }
    let nfa := nfa.shiftIds m.states.length
    let m := { m with acceptingStates := amInsert m.acceptingStates nfa.endState patternId }
    let states0 := listModify
      (fun st => { st with epsilonTransitions := st.epsilonTransitions ++ [nfa.startState] })
      m.states 0
    let m := { m with states := states0 }
    return (patternId, m.appendNfa nfa)

def mstateAt (states : List MState) (i : Nat) : MState := states.getD i default

/-- One frontier expansion of the ε-closure work list: add every not yet
seen ε-target of the members. -/
def closureExpand (states : List MState) (cl : List Nat) : List Nat :=
  cl.foldl
    (fun acc sid =>
      (mstateAt states sid).epsilonTransitions.foldl
        (fun acc t => if acc.contains t then acc else acc ++ [t]) acc)
    cl

def iterN {α : Type _} (g : α → α) : Nat → α → α
  | 0, a => a
  | n + 1, a => iterN g n (g a)

/-- `epsilon_closure_set` (also used for the single start state, which
`add_state_if_new` sorts and dedups anyway): the work-list loop is
modelled as a bounded fixpoint iteration — the closure can hold at most
one entry per NFA state, so `states.length` expansions reach the
fixpoint — followed by `sort_unstable`/`dedup`. -/
def epsilonClosureSet (m : MultiPatternNfa) (init : List Nat) : List Nat :=
  sortDedup (iterN (closureExpand m.states) m.states.length init)

/-- `move_set`. -/
def moveSet (m : MultiPatternNfa) (states : List Nat) (charClass : Nat) : List Nat :=
  states.foldl
    (fun acc sid =>
      acc ++ ((mstateAt m.states sid).transitions.filterMap
        (fun t => if t.1 = charClass then some t.2 else Option.none)))
    []

end MultiPatternNfa

end CT

end Scangen

namespace Scangen

namespace CT

/-! ### Subset-construction DFA (`src/dfa.rs`) -/

/-- `DfaState`: the `marked` flag is represented by membership in the
construction loop's `marked` list. -/
structure DfaState where
  id : Nat
  nfaStates : List Nat
  deriving Repr, DecidableEq

instance : Inhabited DfaState := ⟨⟨0, []⟩⟩

/-- Nested `BTreeMap<StateID, BTreeMap<CharacterClass, StateID>>` as a
sorted association list of sorted association lists; `CharacterClass`'s
`Ord` compares ids only. -/
def tmInsert : List (Nat × List (Nat × Nat)) → Nat → Nat → Nat →
    List (Nat × List (Nat × Nat))
  | [], s, cls, t => [(s, [(cls, t)])]
  | (s', inner) :: rest, s, cls, t =>
    if s < s' then (s, [(cls, t)]) :: (s', inner) :: rest
    else if s = s' then (s', amInsert inner cls t) :: rest
    else (s', inner) :: tmInsert rest s cls t

structure Dfa where
  states : List DfaState
  patterns : List String
  acceptingStates : List (Nat × Nat)
  charClasses : List CAst
  transitions : List (Nat × List (Nat × Nat))
  deriving Repr, DecidableEq

/-- The count the `debug_assert!` in `add_state_if_new` checks: accepting
NFA states contained in a DFA state's (sorted, dedup'd) NFA-state set. -/
def acceptingNfaCount (nfaStates : List Nat) (accepting : List (Nat × Nat)) : Nat :=
  (nfaStates.filter (fun sid => (accepting.lookup sid).isSome)).length

/-- `Dfa::add_state_if_new` (without the panic of the debug assertion,
i.e. the release behaviour): sorts and dedups the NFA-state set, reuses
an existing DFA state with the same set, otherwise appends a fresh state
whose pattern id, if any, is that of the first (smallest) contained
accepting NFA state. -/
def addStateIfNew (dfa : Dfa) (nfaStates : List Nat)
    (accepting : List (Nat × Nat)) : Nat × Dfa :=
  let ns := sortDedup nfaStates
  match dfa.states.findIdx? (fun st => st.nfaStates = ns) with
  | some stateId => (stateId, dfa)
  | Option.none =>
    let stateId := dfa.states.length
    let acc :=
      match ns.findSome? (fun sid => (accepting.lookup sid).map fun pid => pid) with
      | some patternId => amInsert dfa.acceptingStates stateId patternId
      | Option.none => dfa.acceptingStates
    (stateId, { dfa with states := dfa.states ++ [⟨stateId, ns⟩],
                         acceptingStates := acc })

def enumerate {α : Type _} (l : List α) : List (Nat × α) :=
  (List.range l.length).zip l

/-- The `for char_class in dfa.char_classes` loop body of
`Dfa::try_from_nfa`: compute the move/closure target for each class in
id order, intern the target DFA state, record the transition, and push
unmarked new states. -/
def processClasses (nfa : MultiPatternNfa) (accepting : List (Nat × Nat))
    (nfaStates : List Nat) (stateId : Nat) :
    List (Nat × CAst) → Dfa → List Nat → List Nat → Dfa × List Nat × List Nat
  | [], dfa, workList, marked => (dfa, workList, marked)
  | (classId, _) :: rest, dfa, workList, marked =>
    let targetStates := nfa.epsilonClosureSet (nfa.moveSet nfaStates classId)
    if targetStates.isEmpty then
      processClasses nfa accepting nfaStates stateId rest dfa workList marked
    else
      let r := addStateIfNew dfa targetStates accepting
      let dfa := { r.2 with transitions := tmInsert r.2.transitions stateId classId r.1 }
      if marked.contains r.1 then
        processClasses nfa accepting nfaStates stateId rest dfa workList marked
      else
        processClasses nfa accepting nfaStates stateId rest dfa
          (r.1 :: workList) (r.1 :: marked)

/-- The `while let Some(state_id) = work_list.pop()` loop.  `Vec::pop`
takes the most recently pushed id, so the work list is a stack with its
top at the head.  `fuel` bounds the iterations; the returned list is the
remaining work (empty iff the construction ran to completion). -/
def tryFromNfaLoop (nfa : MultiPatternNfa) (accepting : List (Nat × Nat)) :
    Nat → Dfa → List Nat → List Nat → Dfa × List Nat
  | 0, dfa, workList, _ => (dfa, workList)
  | _ + 1, dfa, [], _ => (dfa, [])
  | fuel + 1, dfa, stateId :: workList, marked =>
    let nfaStates := (dfa.states.getD stateId default).nfaStates
    let r := processClasses nfa accepting nfaStates stateId
      (enumerate dfa.charClasses) dfa workList marked
    tryFromNfaLoop nfa accepting fuel r.1 r.2.1 r.2.2

/-- `Dfa::try_from_nfa`. -/
def tryFromNfa (m : MultiPatternNfa) (fuel : Nat) : Dfa × List Nat :=
  let startState := m.epsilonClosureSet [0]
  let dfa : Dfa := { states := [], patterns := m.patterns, acceptingStates := [],
                     charClasses := m.charClasses, transitions := [] }
  let r := addStateIfNew dfa startState m.acceptingStates
  tryFromNfaLoop m m.acceptingStates fuel r.2 [r.1] [r.1]

/-- Run a compile-time DFA from its start state 0 over a sequence of
class ids; the accepted pattern id, if the final state is accepting. -/
def runDfa (dfa : Dfa) (input : List Nat) : Option Nat :=
  input.foldl
    (fun st cls => st.bind fun s => (dfa.transitions.lookup s).bind fun inner =>
      inner.lookup cls)
    (some 0)

def acceptsPattern (dfa : Dfa) (input : List Nat) : Option Nat :=
  (runDfa dfa input).bind fun s => dfa.acceptingStates.lookup s

end CT

end Scangen

namespace Scangen

namespace CT

/-! ### DFA minimization (`src/dfa.rs` lines 240-477) -/

/-- `Itertools::chunk_by`: consecutive states with equal key form one
group; groups keep their (ascending) state ids. -/
def chunkIds (key : Nat → Nat) : List DfaState → List (List Nat)
  | [] => []
  | st :: rest =>
    match chunkIds key rest with
    | [] => [[st.id]]
    | (y :: ys) :: chunks =>
      if key st.id = key y then (st.id :: y :: ys) :: chunks
      else [st.id] :: (y :: ys) :: chunks
    | [] :: chunks => [st.id] :: [] :: chunks

/-- `Dfa::calculate_initial_partition`: chunk the states in order, with
an accepting state keyed by its pattern id and a non-accepting state
keyed by the first unused pattern id (`accepting_states.len()`). -/
def calculateInitialPartition (dfa : Dfa) : List (List Nat) :=
  chunkIds
    (fun sid =>
      match dfa.acceptingStates.lookup sid with
      | some pid => pid
      | Option.none => dfa.acceptingStates.length)
    dfa.states

/-- `Dfa::find_group`: index of the group containing a state. -/
def findGroup (stateId : Nat) (partition : List (List Nat)) : Option Nat :=
  partition.findIdx? (fun g => g.contains stateId)

/-- `Dfa::build_transitions_to_partition_group`
(`TransitionsToPartitionGroups`): the state's transition map with targets
replaced by their group index; `CharacterClass`'s `Ord` is by class id. -/
def buildTransitionsToPartitionGroups (dfa : Dfa) (stateId : Nat)
    (partition : List (List Nat)) : List (Nat × Nat) :=
  match dfa.transitions.lookup stateId with
  | some transitionsOfState =>
    transitionsOfState.map fun t => (t.1, (findGroup t.2 partition).getD 0)
  | Option.none => []

/-- `Ord` of `TransitionsToPartitionGroups`: lexicographic over the
vector of `(class id, group index)` pairs. -/
def keyLt : List (Nat × Nat) → List (Nat × Nat) → Bool
  | [], [] => false
  | [], _ :: _ => true
  | _ :: _, [] => false
  | a :: r, b :: s =>
    if a.1 < b.1 then true
    else if b.1 < a.1 then false
    else if a.2 < b.2 then true
    else if b.2 < a.2 then false
    else keyLt r s

/-- `BTreeMap<TransitionsToPartitionGroups, StateGroup>` insertion: the
sub-groups of a split are ordered by their transition key. -/
def tmapInsert (k : List (Nat × Nat)) (sid : Nat) :
    List (List (Nat × Nat) × List Nat) → List (List (Nat × Nat) × List Nat)
  | [] => [(k, [sid])]
  | (k', g) :: rest =>
    if keyLt k k' then (k, [sid]) :: (k', g) :: rest
    else if k = k' then (k', g ++ [sid]) :: rest
    else (k', g) :: tmapInsert k sid rest

/-- `Dfa::split_group`. -/
def splitGroup (dfa : Dfa) (group : List Nat) (partition : List (List Nat)) :
    List (List Nat) :=
  if group.length = 1 then [group]
  else
    (group.foldl
      (fun acc sid =>
        tmapInsert (buildTransitionsToPartitionGroups dfa sid partition) sid acc)
      []).map Prod.snd

/-- `Dfa::calculate_new_partition`. -/
def calculateNewPartition (dfa : Dfa) (partition : List (List Nat)) :
    List (List Nat) :=
  partition.foldl (fun acc group => acc ++ splitGroup dfa group partition) []

/-- The `while changed` refinement loop of `Dfa::minimize`; `none` when
the fuel ran out before the partition stabilised. -/
def minimizeLoop (dfa : Dfa) : Nat → List (List Nat) → Option (List (List Nat))
  | 0, _ => Option.none
  | fuel + 1, partition =>
    let partitionNew := calculateNewPartition dfa partition
    if partitionNew = partition then some partitionNew
    else minimizeLoop dfa fuel partitionNew

/-- `Dfa::add_representive_state`: a fresh empty state per group; it is
accepting with pattern id `p` whenever some member of the group maps to
`p` (no break — a later member overwrites). -/
def addRepresentativeState (dfa : Dfa) (group : List Nat)
    (accepting : List (Nat × Nat)) : Dfa :=
  let stateId := dfa.states.length
  let acc := group.foldl
    (fun acc sid =>
      match accepting.lookup sid with
      | some pid => amInsert acc stateId pid
      | Option.none => acc)
    dfa.acceptingStates
  { dfa with states := dfa.states ++ [⟨stateId, []⟩], acceptingStates := acc }

/-- `Dfa::merge_transitions_of_state`: fold a merged state's edges into
the representative's entry and drop the merged entry. -/
def mergeTransitionsOfState (stateId repId : Nat)
    (transitions : List (Nat × List (Nat × Nat))) :
    List (Nat × List (Nat × Nat)) :=
  match transitions.findIdx? (fun e => e.1 = repId) with
  | Option.none => transitions
  | some repPos =>
    let repTrans := (transitions.getD repPos (0, [])).2
    match transitions.findIdx? (fun e => e.1 = stateId) with
    | Option.none => transitions.set repPos (repId, repTrans)
    | some pos =>
      let merged := (transitions.getD pos (0, [])).2.foldl
        (fun acc t => amInsert acc t.1 t.2) repTrans
      -- `remove(pos)` happens after `rep_pos` was computed; the
      -- representative is the group's smallest id, so `rep_pos < pos`
      -- and the removal does not shift it.
      (transitions.eraseIdx pos).set repPos (repId, merged)

/-- `Dfa::merge_transitions`. -/
def mergeTransitions (partition : List (List Nat))
    (transitions : List (Nat × List (Nat × Nat))) :
    List (Nat × List (Nat × Nat)) :=
  partition.foldl
    (fun transitions group =>
      if group.length ≤ 1 then transitions
      else
        match group with
        | [] => transitions
        | rep :: rest =>
          rest.foldl (fun transitions sid => mergeTransitionsOfState sid rep transitions)
            transitions)
    transitions

/-- `Dfa::renumber_states_in_transitions` (a state missing from the
partition panics in the source; such states cannot arise here). -/
def renumberStatesInTransitions (partition : List (List Nat))
    (transitions : List (Nat × List (Nat × Nat))) :
    List (Nat × List (Nat × Nat)) :=
  transitions.map fun e =>
    ((findGroup e.1 partition).getD 0,
      e.2.map fun t => (t.1, (findGroup t.2 partition).getD 0))

/-- `Dfa::update_transitions`: merge, renumber, and collect the vector
back into a `BTreeMap`. -/
def updateTransitions (partition : List (List Nat))
    (transitions : List (Nat × List (Nat × Nat))) :
    List (Nat × List (Nat × Nat)) :=
  let merged := mergeTransitions partition transitions
  let renumbered := renumberStatesInTransitions partition merged
  renumbered.foldl
    (fun acc e => e.2.foldl (fun acc t => tmInsert acc e.1 t.1 t.2) acc)
    []

/-- `Dfa::create_from_partition`. -/
def createFromPartition (dfa : Dfa) (partition : List (List Nat)) : Dfa :=
  let dfaNew : Dfa :=
    { states := [], patterns := dfa.patterns, acceptingStates := [],
      charClasses := dfa.charClasses, transitions := dfa.transitions }
  let dfaNew := partition.foldl
    (fun d group => addRepresentativeState d group dfa.acceptingStates) dfaNew
  { dfaNew with transitions := updateTransitions partition dfaNew.transitions }

/-- `Dfa::minimize`. -/
def Dfa.minimize (dfa : Dfa) (fuel : Nat) : Option Dfa :=
  (minimizeLoop dfa fuel (calculateInitialPartition dfa)).map
    (createFromPartition dfa)

end CT

end Scangen

namespace Scangen

/-! ### Concrete compile-time examples

For C6: the pattern set `["a*b", "ca"]` (ASTs as the external regex
parser produces them).  For C7: the pattern set `["a", "(a)"]` — two
distinct pattern strings with identical NFAs. -/

def astAStarB : CT.Ast :=
  .concat [.repetition .zeroOrMore (.literal 'a'), .literal 'b']

def astCA : CT.Ast := .concat [.literal 'c', .literal 'a']

def ctAdd6 : Except Unit (Nat × CT.MultiPatternNfa) :=
  (CT.MultiPatternNfa.new.addPattern "a*b" astAStarB).bind fun r =>
    r.2.addPattern "ca" astCA

def ctMulti6 : CT.MultiPatternNfa :=
  match ctAdd6 with
  | .ok r => r.2
  | .error _ => CT.MultiPatternNfa.new

def ctDfa6Pair : CT.Dfa × List Nat := CT.tryFromNfa ctMulti6 32

def ctDfa6 : CT.Dfa := ctDfa6Pair.1

def ctMin6? : Option CT.Dfa := CT.Dfa.minimize ctDfa6 32

def astA : CT.Ast := .literal 'a'

def astGroupA : CT.Ast := .group (.literal 'a')

def ctAdd7 : Except Unit (Nat × CT.MultiPatternNfa) :=
  (CT.MultiPatternNfa.new.addPattern "a" astA).bind fun r =>
    r.2.addPattern "(a)" astGroupA

def ctMulti7 : CT.MultiPatternNfa :=
  match ctAdd7 with
  | .ok r => r.2
  | .error _ => CT.MultiPatternNfa.new

def ctDfa7Pair : CT.Dfa × List Nat := CT.tryFromNfa ctMulti7 32

def ctDfa7 : CT.Dfa := ctDfa7Pair.1

end Scangen

namespace Scangen

/-! ## C6: minimization is not equivalence-preserving -/

/-- C6 (failing-input evaluation): for the patterns `["a*b", "ca"]` the
interned classes are `a = 0`, `b = 1`, `c = 2`, so the input `"ca"` is
the class sequence `[2, 0]`.  The subset construction completes (empty
work list); the original DFA accepts `"ca"` with pattern id 1.  The
partition-refinement loop stabilises on a partition whose group 0 does
not contain the original start state 0 (it sits in group 1, because
`split_group` orders sub-groups by their `TransitionsToPartitionGroups`
key), so `create_from_partition` makes old state 1 the new state 0 — and
the minimized DFA rejects `"ca"` outright, while its state count stays
within the original's. -/
theorem minimize_not_equivalent_on_a_star_b_ca :
    ctAdd6.isOk = true ∧
    ctDfa6Pair.2 = [] ∧
    CT.acceptsPattern ctDfa6 [2, 0] = some 1 ∧
    (ctMin6?.map fun d => CT.acceptsPattern d [2, 0]) = some Option.none ∧
    (ctMin6?.map fun d => decide (d.states.length ≤ ctDfa6.states.length)) =
      some true ∧
    (CT.minimizeLoop ctDfa6 32 (CT.calculateInitialPartition ctDfa6)).map
      (CT.findGroup 0) = some (some 1) := by
  refine ⟨by decide, by decide, by decide, by decide, by decide, by decide⟩

/-! ## C7: accepting NFA states per DFA state -/

/-- C7 (counterexample): for the two distinct pattern strings `"a"` and
`"(a)"` (identical automata), the subset construction completes and
creates a DFA state — state 1, the set `{2, 4}` — that contains the
accepting NFA states of both patterns: the claimed invariant checked by
the `debug_assert!` in `add_state_if_new` is violated. -/
theorem dfaState_with_two_accepting_nfa_states :
    ctAdd7.isOk = true ∧
    ctDfa7Pair.2 = [] ∧
    ¬ (∀ st ∈ ctDfa7.states,
        CT.acceptingNfaCount st.nfaStates ctMulti7.acceptingStates ≤ 1) := by
  refine ⟨by decide, by decide, by decide⟩

namespace CT

/-- Invariant of the subset construction: the accepting map's keys are
strictly increasing and are ids of existing DFA states. -/
def accInv (dfa : Dfa) : Prop :=
  dfa.acceptingStates.Pairwise (fun a b => a.1 < b.1) ∧
  ∀ kv ∈ dfa.acceptingStates, kv.1 < dfa.states.length

theorem amInsert_gt (k v : Nat) :
    ∀ (l : List (Nat × Nat)), (∀ kv ∈ l, kv.1 < k) →
      amInsert l k v = l ++ [(k, v)] := by
  intro l
  induction l with
  | nil => intro _; rfl
  | cons kv rest ih =>
    intro h
    have hk : kv.1 < k := h kv (by simp)
    obtain ⟨k', v'⟩ := kv
    simp only at hk
    unfold amInsert
    rw [if_neg (by omega), if_neg (by omega)]
    rw [ih fun x hx => h x (by simp [hx])]
    rfl

theorem addStateIfNew_inv (dfa : Dfa) (ns : List Nat) (acc : List (Nat × Nat))
    (h : accInv dfa) : accInv (addStateIfNew dfa ns acc).2 := by
  obtain ⟨hp, hb⟩ := h
  unfold addStateIfNew accInv
  simp only
  split
  · exact ⟨hp, hb⟩
  · split
    · constructor
      · rw [amInsert_gt _ _ _ hb, List.pairwise_append]
        refine ⟨hp, List.pairwise_singleton _ _, ?_⟩
        intro a ha b hbmem
        simp only [List.mem_singleton] at hbmem
        subst hbmem
        exact hb a ha
      · intro kv hkv
        rw [amInsert_gt _ _ _ hb] at hkv
        simp only [List.length_append, List.length_cons, List.length_nil]
        rcases List.mem_append.mp hkv with hkv | hkv
        · have := hb kv hkv; omega
        · simp only [List.mem_singleton] at hkv
          subst hkv
          omega
    · refine ⟨hp, ?_⟩
      intro kv hkv
      have := hb kv hkv
      simp only [List.length_append, List.length_cons, List.length_nil]
      omega

theorem processClasses_inv (nfa : MultiPatternNfa) (acc : List (Nat × Nat))
    (ns : List Nat) (sid : Nat) :
    ∀ (classes : List (Nat × CAst)) (dfa : Dfa) (wl mk : List Nat),
      accInv dfa → accInv (processClasses nfa acc ns sid classes dfa wl mk).1 := by
  intro classes
  induction classes with
  | nil => intro dfa wl mk h; exact h
  | cons cls rest ih =>
    intro dfa wl mk h
    obtain ⟨classId, ca⟩ := cls
    unfold processClasses
    dsimp only
    split
    · exact ih dfa wl mk h
    · have h' := addStateIfNew_inv dfa
        (nfa.epsilonClosureSet (nfa.moveSet ns classId)) acc h
      split
      · exact ih _ wl mk ⟨h'.1, h'.2⟩
      · exact ih _ _ _ ⟨h'.1, h'.2⟩

theorem tryFromNfaLoop_inv (nfa : MultiPatternNfa) (acc : List (Nat × Nat)) :
    ∀ (fuel : Nat) (dfa : Dfa) (wl mk : List Nat),
      accInv dfa → accInv (tryFromNfaLoop nfa acc fuel dfa wl mk).1 := by
  intro fuel
  induction fuel with
  | zero => intro dfa wl mk h; exact h
  | succ k ih =>
    intro dfa wl mk h
    cases wl with
    | nil => exact h
    | cons sid rest =>
      unfold tryFromNfaLoop
      exact ih _ _ _ (processClasses_inv nfa acc _ sid _ dfa rest mk h)

theorem pairwise_keys_unique :
    ∀ (l : List (Nat × Nat)), l.Pairwise (fun a b => a.1 < b.1) →
      ∀ st p₁ p₂, (st, p₁) ∈ l → (st, p₂) ∈ l → p₁ = p₂ := by
  intro l
  induction l with
  | nil => intro _ st p₁ p₂ h₁ _; simp at h₁
  | cons kv rest ih =>
    intro hp st p₁ p₂ h₁ h₂
    obtain ⟨hhead, hrest⟩ := List.pairwise_cons.mp hp
    obtain ⟨k, v⟩ := kv
    rcases List.mem_cons.mp h₁ with h₁ | h₁ <;>
      rcases List.mem_cons.mp h₂ with h₂ | h₂
    · simp only [Prod.mk.injEq] at h₁ h₂
      omega
    · simp only [Prod.mk.injEq] at h₁
      have := hhead _ h₂
      simp only at this
      omega
    · simp only [Prod.mk.injEq] at h₂
      have := hhead _ h₁
      simp only at this
      omega
    · exact ih hrest st p₁ p₂ h₁ h₂

end CT

/-- C7 (amended): a DFA state produced by the subset construction may
contain more than one accepting NFA state (the counterexample above),
but every accepting DFA state is nevertheless mapped to exactly one
pattern id — `add_state_if_new` inserts one entry per fresh state id, so
the accepting map's keys never repeat. -/
theorem tryFromNfa_accepting_unique :
    ∀ (m : CT.MultiPatternNfa) (fuel : Nat) (st p₁ p₂ : Nat),
      (st, p₁) ∈ (CT.tryFromNfa m fuel).1.acceptingStates →
      (st, p₂) ∈ (CT.tryFromNfa m fuel).1.acceptingStates → p₁ = p₂ := by
  intro m fuel st p₁ p₂ h₁ h₂
  have hinv : CT.accInv (CT.tryFromNfa m fuel).1 := by
    unfold CT.tryFromNfa
    apply CT.tryFromNfaLoop_inv
    apply CT.addStateIfNew_inv
    exact ⟨List.Pairwise.nil, by intro kv hkv; simp at hkv⟩
  exact CT.pairwise_keys_unique _ hinv.1 st p₁ p₂ h₁ h₂

/-- Witness: in the `["a", "(a)"]` construction, state 1 is accepting
with exactly pattern id 0. -/
theorem tryFromNfa_accepting_unique_witness :
    ((1, 0) ∈ (CT.tryFromNfa ctMulti7 32).1.acceptingStates) ∧ (0 : Nat) = 0 :=
  ⟨by decide, tryFromNfa_accepting_unique ctMulti7 32 1 0 0 (by decide) (by decide)⟩

end Scangen
